import Mathlib

/-!
A shallow embedding of the `bitmap` tag-index core (C++ sources under
`src/`).  C++ `std::string` values are modelled as byte lists
(`List Nat`), binary streams as byte lists, machine integers as `Nat`
with explicit `% 2^w` where the code truncates, and the roaring bitmap
as a `Finset Nat` (its set semantics).  Fallible operations return a
`Bool` success flag together with the state the C++ code leaves behind.
-/

namespace BitmapIndex

/-- A C++ `std::string` / byte buffer: a list of byte values. -/
abbrev Str := List Nat

/-! ### Binary codec (host little-endian fixed-width integers)

`write_binary`/`read_binary` in `mapping.cpp`, `forward_index.cpp` and
`inverted_index.cpp` write raw `uint64_t`/`uint32_t` values; on the
little-endian host this is the byte sequence below.  `read` fails when
fewer than the required bytes remain (stream `good()` turns false). -/

/-- Little-endian decode of a byte list. -/
def decodeLE (bs : List Nat) : Nat :=
  bs.foldr (fun b acc => b + 256 * acc) 0

/-- Little-endian encode of `n` into exactly `k` bytes (truncating, as a
fixed-width machine-integer write does). -/
def encodeLE : Nat → Nat → List Nat
  | 0, _ => []
  | k + 1, n => (n % 256) :: encodeLE k (n / 256)

/-- `write_binary<uint64_t>`: 8 bytes, host little-endian. -/
def write64 (n : Nat) : List Nat := encodeLE 8 n

/-- `write_binary<uint32_t>`: 4 bytes, host little-endian. -/
def write32 (n : Nat) : List Nat := encodeLE 4 n

/-- `read_binary<uint64_t>`: consume 8 bytes or fail. -/
def read64 (s : List Nat) : Option (Nat × List Nat) :=
  if 8 ≤ s.length then some (decodeLE (s.take 8), s.drop 8) else none

/-- `read_binary<uint32_t>`: consume 4 bytes or fail. -/
def read32 (s : List Nat) : Option (Nat × List Nat) :=
  if 4 ≤ s.length then some (decodeLE (s.take 4), s.drop 4) else none

/-! ### `utils/string_util.cpp` -/

/-- `std::isspace` in the C locale: space, `\t`, `\n`, `\v`, `\f`, `\r`. -/
def isSpaceByte (b : Nat) : Bool := b == 32 || (9 ≤ b && b ≤ 13)

/-- `utils::trimCopy`: strip leading and trailing whitespace. -/
def trimCopy (s : Str) : Str :=
  ((s.dropWhile isSpaceByte).reverse.dropWhile isSpaceByte).reverse

/-- `utils::split` with `skip_empty == false`: split on the delimiter
byte, keeping empty tokens; always yields at least one token. -/
def splitKeep (d : Nat) : Str → List Str
  | [] => [[]]
  | b :: bs =>
    match splitKeep d bs with
    | [] => [[]]
    | p :: ps => if b = d then [] :: p :: ps else (b :: p) :: ps

/-! ### `core/mapping.cpp` (the dictionary)

The C++ state is two vectors (`doc_id_to_string_`, `tag_id_to_string_`)
plus two hash maps that are maintained as their exact inverses (interning
inserts into both; `load` rebuilds the maps from the vectors).  The model
keeps the vectors and derives the hash-map lookup as the index of the
first occurrence, which coincides with the C++ map on every state the
code constructs. -/

/-- `INVALID_DOC_ID = std::numeric_limits<uint32_t>::max()`. -/
def INVALID_DOC_ID : Nat := 4294967295

/-- `INVALID_TAG_ID = std::numeric_limits<uint32_t>::max()`. -/
def INVALID_TAG_ID : Nat := 4294967295

structure MappingState where
  docs : List Str
  tags : List Str
deriving DecidableEq

/-- The default-constructed (or `clear`ed) dictionary. -/
def MappingState.empty : MappingState := ⟨[], []⟩

/-- Hash-map lookup `string_to_doc_id_.find`: index of the string in the
vector (first occurrence). -/
def lookupStr : List Str → Str → Option Nat
  | [], _ => none
  | t :: ts, s => if t = s then some 0 else (lookupStr ts s).map (· + 1)

/-- `Mapping::getId`: intern a document string.  Empty input is
rejected; a known string returns its existing id; otherwise the next id
(the vector length) is assigned unless it would collide with the
sentinel. -/
def Mapping.getId (st : MappingState) (s : Str) : Nat × MappingState :=
  if s = [] then (INVALID_DOC_ID, st)
  else
    match lookupStr st.docs s with
    | some i => (i, st)
    | none =>
      let new_id := st.docs.length
      if new_id = INVALID_DOC_ID then (INVALID_DOC_ID, st)
      else (new_id, { st with docs := st.docs ++ [s] })

/-- `Mapping::getTagId`: intern a tag string (same algorithm on the tag
side). -/
def Mapping.getTagId (st : MappingState) (s : Str) : Nat × MappingState :=
  if s = [] then (INVALID_TAG_ID, st)
  else
    match lookupStr st.tags s with
    | some i => (i, st)
    | none =>
      let new_id := st.tags.length
      if new_id = INVALID_TAG_ID then (INVALID_TAG_ID, st)
      else (new_id, { st with tags := st.tags ++ [s] })

/-- `Mapping::getStringId`: reverse lookup; empty string when the id is
out of range. -/
def Mapping.getStringId (st : MappingState) (doc_id : Nat) : Str :=
  if doc_id < st.docs.length then st.docs.getD doc_id [] else []

/-- `Mapping::getStringTag`: reverse lookup on the tag side. -/
def Mapping.getStringTag (st : MappingState) (tag_id : Nat) : Str :=
  if tag_id < st.tags.length then st.tags.getD tag_id [] else []

/-- `Mapping::getDocCount`. -/
def Mapping.getDocCount (st : MappingState) : Nat := st.docs.length

/-- `Mapping::getTagCount`. -/
def Mapping.getTagCount (st : MappingState) : Nat := st.tags.length

/-- Intern a sequence of document strings in order, collecting the
returned ids (repeated `Mapping::getId` calls). -/
def Mapping.internDocs (st : MappingState) : List Str → List Nat × MappingState
  | [] => ([], st)
  | s :: ss =>
    let r := Mapping.getId st s
    let rr := Mapping.internDocs r.2 ss
    (r.1 :: rr.1, rr.2)

/-- Intern a sequence of tag strings in order, collecting the returned
ids (repeated `Mapping::getTagId` calls). -/
def Mapping.internTagsSeq (st : MappingState) : List Str → List Nat × MappingState
  | [] => ([], st)
  | s :: ss =>
    let r := Mapping.getTagId st s
    let rr := Mapping.internTagsSeq r.2 ss
    (r.1 :: rr.1, rr.2)

/-- Dictionary states reachable from empty by interning only (the only
mutations ingestion performs). -/
inductive Mapping.Reachable : MappingState → Prop
  | empty : Mapping.Reachable MappingState.empty
  | stepDoc (st : MappingState) (s : Str) :
      Mapping.Reachable st → Mapping.Reachable (Mapping.getId st s).2
  | stepTag (st : MappingState) (s : Str) :
      Mapping.Reachable st → Mapping.Reachable (Mapping.getTagId st s).2

/-! ### `core/forward_index.cpp` -/

/-- The `ForwardIndex` state: `doc_to_tags_`, a vector indexed by doc id
holding each document's tag-id list. -/
abbrev FwdState := List (List Nat)

/-- `ForwardIndex::addTags`: no-op on the sentinel; otherwise grow the
vector to `doc_id + 1` slots (new slots empty) and replace slot
`doc_id`. -/
def ForwardIndex.addTags (fw : FwdState) (doc_id : Nat) (tag_ids : List Nat) : FwdState :=
  if doc_id = INVALID_DOC_ID then fw
  else
    let fw2 := if fw.length ≤ doc_id then fw ++ List.replicate (doc_id + 1 - fw.length) [] else fw
    fw2.set doc_id tag_ids

/-- `ForwardIndex::getTags`: empty list for the sentinel or an
out-of-range doc id. -/
def ForwardIndex.getTags (fw : FwdState) (doc_id : Nat) : List Nat :=
  if doc_id = INVALID_DOC_ID ∨ fw.length ≤ doc_id then [] else fw.getD doc_id []

/-- `ForwardIndex::getDocCount`. -/
def ForwardIndex.getDocCount (fw : FwdState) : Nat := fw.length

/-! ### `core/inverted_index.cpp`

Each slot of `tag_to_bitmap_` is a `roaring::Roaring`, a compressed
sorted set of 32-bit doc ids; it is modelled by its set semantics as a
`Finset Nat`. -/

/-- One roaring bitmap, modelled as the set of doc ids it contains. -/
abbrev Bitmap := Finset Nat

/-- Insert a value into an ascending list, keeping it ascending. -/
def insertAsc (x : Nat) : List Nat → List Nat
  | [] => [x]
  | y :: ys => if x ≤ y then x :: y :: ys else y :: insertAsc x ys

theorem insertAsc_left_comm (x y : Nat) (l : List Nat) :
    insertAsc x (insertAsc y l) = insertAsc y (insertAsc x l) := by
  induction l with
  | nil =>
    by_cases hxy : x ≤ y
    · by_cases hyx : y ≤ x
      · have hxe : x = y := Nat.le_antisymm hxy hyx
        subst hxe
        rfl
      · simp [insertAsc, hxy, hyx]
    · have hyx : y ≤ x := by omega
      simp [insertAsc, hxy, hyx]
  | cons z zs ih =>
    by_cases hyz : y ≤ z <;> by_cases hxz : x ≤ z
    · by_cases hxy : x ≤ y
      · by_cases hyx : y ≤ x
        · have hxe : x = y := Nat.le_antisymm hxy hyx
          subst hxe
          rfl
        · simp [insertAsc, hyz, hxz, hxy, hyx]
      · have hyx : y ≤ x := by omega
        simp [insertAsc, hyz, hxz, hxy, hyx]
    · have hxy : ¬x ≤ y := by omega
      simp [insertAsc, hyz, hxz, hxy]
    · have hyx : ¬y ≤ x := by omega
      simp [insertAsc, hyz, hxz, hyx]
    · simp [insertAsc, hyz, hxz, ih]

instance : LeftCommutative insertAsc := ⟨insertAsc_left_comm⟩

/-- Ascending iteration over a roaring bitmap (`begin()`/`end()` walk
the compressed set in increasing doc-id order). -/
def Bitmap.ascList (b : Bitmap) : List Nat :=
  Multiset.foldr insertAsc [] b.val

/-- The `InvertedIndex` state: the `tag_to_bitmap_` slot vector. -/
abbrev InvState := List Bitmap

/-- `InvertedIndex::add` (with `ensureTagCapacity`): no-op on either
sentinel; otherwise grow the slot vector to `tag_id + 1` and insert the
doc id into slot `tag_id` (roaring `add` elides duplicates). -/
def InvertedIndex.add (iv : InvState) (doc_id tag_id : Nat) : InvState :=
  if doc_id = INVALID_DOC_ID then iv
  else if tag_id = INVALID_TAG_ID then iv
  else
    let iv2 := if iv.length ≤ tag_id then iv ++ List.replicate (tag_id + 1 - iv.length) ∅ else iv
    iv2.set tag_id (insert doc_id (iv2.getD tag_id ∅))

/-- `InvertedIndex::getBitmap`: `nullopt` iff the tag id is the sentinel
or at/beyond the slot-vector size; otherwise the slot (possibly an empty
bitmap). -/
def InvertedIndex.getBitmap (iv : InvState) (tag_id : Nat) : Option Bitmap :=
  if tag_id = INVALID_TAG_ID then none
  else if h : tag_id < iv.length then some (iv.get ⟨tag_id, h⟩) else none

/-- `InvertedIndex::getTagCount`: the slot-vector length. -/
def InvertedIndex.getTagCount (iv : InvState) : Nat := iv.length

/-- `enum class BitmapOperation` from `inverted_index.h`. -/
inductive BitmapOperation
  | AND
  | OR
  | XOR
  | ANDNOT
deriving DecidableEq

/-- The `AND` arm of the loop in `InvertedIndex::performOperation`:
a missing tag makes the result empty; otherwise intersect in place and
return the empty bitmap as soon as the running result is empty. -/
def InvertedIndex.andLoop (iv : InvState) (acc : Bitmap) : List Nat → Bitmap
  | [] => acc
  | t :: ts =>
    match InvertedIndex.getBitmap iv t with
    | none => ∅
    | some bt =>
      let r := acc ∩ bt
      if r = ∅ then ∅ else InvertedIndex.andLoop iv r ts

/-- The `OR` arm of the loop: missing tags are skipped, present bitmaps
are folded with union. -/
def InvertedIndex.orLoop (iv : InvState) (acc : Bitmap) : List Nat → Bitmap
  | [] => acc
  | t :: ts =>
    match InvertedIndex.getBitmap iv t with
    | none => InvertedIndex.orLoop iv acc ts
    | some bt => InvertedIndex.orLoop iv (acc ∪ bt) ts

/-- The `XOR` arm of the loop: missing tags are skipped, present bitmaps
are folded with symmetric difference. -/
def InvertedIndex.xorLoop (iv : InvState) (acc : Bitmap) : List Nat → Bitmap
  | [] => acc
  | t :: ts =>
    match InvertedIndex.getBitmap iv t with
    | none => InvertedIndex.xorLoop iv acc ts
    | some bt => InvertedIndex.xorLoop iv (symmDiff acc bt) ts

/-- The `handle_andnot` block: the union of the bitmaps of the valid ids
in `rest` (the subtrahend `right_side`). -/
def InvertedIndex.andnotRight (iv : InvState) : List Nat → Bitmap
  | [] => ∅
  | t :: ts =>
    match InvertedIndex.getBitmap iv t with
    | none => InvertedIndex.andnotRight iv ts
    | some bt => bt ∪ InvertedIndex.andnotRight iv ts

/-- `InvertedIndex::performOperation`.  Empty input gives the empty
bitmap; a missing first tag gives the empty bitmap under every
operator; otherwise the operator-specific loop runs over the remaining
ids.  For `ANDNOT` the source jumps (via `goto handle_andnot`) to code
that subtracts the union of the valid bitmaps of `rest` from the first
bitmap; when `rest` is empty the first bitmap is returned as-is. -/
def InvertedIndex.performOperation (iv : InvState) (tag_ids : List Nat)
    (op : BitmapOperation) : Bitmap :=
  match tag_ids with
  | [] => ∅
  | first :: rest =>
    match InvertedIndex.getBitmap iv first with
    | none => ∅
    | some b =>
      match op with
      | .AND => InvertedIndex.andLoop iv b rest
      | .OR => InvertedIndex.orLoop iv b rest
      | .XOR => InvertedIndex.xorLoop iv b rest
      | .ANDNOT =>
        if rest = [] then b else b \ InvertedIndex.andnotRight iv rest

/-- `InvertedIndex::getCardinality`: 0 when `getBitmap` is `nullopt`. -/
def InvertedIndex.getCardinality (iv : InvState) (tag_id : Nat) : Nat :=
  match InvertedIndex.getBitmap iv tag_id with
  | none => 0
  | some b => b.card

/-! ### `io/csv_parser.cpp` -/

/-- `CsvParser::parseLine`: split the (already trimmed) line on the
delimiter keeping empty parts, trim the first part as the document id
(fail when it trims to empty), and keep the remaining parts whose
trimmed value is non-empty as tags. -/
def CsvParser.parseLine (delim : Nat) (line : Str) : Option (Str × List Str) :=
  match splitKeep delim line with
  | [] => none
  | p0 :: ps =>
    let id := trimCopy p0
    if id = [] then none
    else
      some (id, ps.filterMap (fun p =>
        let t := trimCopy p
        if t = [] then none else some t))

/-- The `getline` loop of `CsvParser::parseStream`: returns the records
delivered to the callback, in order, together with the number of lines
reported as malformed.  Wholly-whitespace lines are skipped silently;
lines on which `parseLine` fails are counted as malformed. -/
def CsvParser.processLines (delim : Nat) : List Str → List (Str × List Str) × Nat
  | [] => ([], 0)
  | l :: ls =>
    let r := CsvParser.processLines delim ls
    let t := trimCopy l
    if t = [] then r
    else
      match CsvParser.parseLine delim t with
      | some rec => (rec :: r.1, r.2)
      | none => (r.1, r.2 + 1)

/-- The observable behaviour of the input stream handed to
`parseStream`: whether a `seekg` to a positive offset succeeds, the
logical lines `getline` yields after the seek point, and whether the
stream's `bad` bit is set when the loop ends. -/
structure InStream where
  seekOk : Bool
  lines : List Str
  badBit : Bool

/-- `CsvParser::parseStream`: fail immediately when a seek to a positive
start offset fails; otherwise run the line loop and succeed unless the
stream's `bad` bit is set.  Result: (records, malformed-line count,
return value). -/
def CsvParser.parseStream (delim : Nat) (st : InStream) (start_offset : Nat) :
    List (Str × List Str) × Nat × Bool :=
  if 0 < start_offset ∧ st.seekOk = false then ([], 0, false)
  else
    let r := CsvParser.processLines delim st.lines
    (r.1, r.2, !st.badBit)

/-! ### `core/index_manager.cpp` -/

/-- The state the `IndexManager` owns that queries and ingestion touch:
the dictionary and the two indices.  (File paths, the byte offset and
the lock are orthogonal to the claims below.) -/
structure Manager where
  mapping : MappingState
  fwd : FwdState
  inv : InvState
deriving DecidableEq

/-- A freshly constructed manager. -/
def Manager.empty : Manager := ⟨MappingState.empty, [], []⟩

/-- Iteration order of `std::set<TagId>`: the distinct elements in
ascending order. -/
def sortedDedup (l : List Nat) : List Nat :=
  Bitmap.ascList l.toFinset

/-- The tag-interning loop of `IndexManager::processParsedLine`: intern
each tag string in order, collecting the valid ids (occurrences
preserved). -/
def IndexManager.internTags (mp : MappingState) : List Str → List Nat × MappingState
  | [] => ([], mp)
  | s :: ss =>
    let r := Mapping.getTagId mp s
    let rest := IndexManager.internTags r.2 ss
    if r.1 = INVALID_TAG_ID then rest else (r.1 :: rest.1, rest.2)

/-- `IndexManager::processParsedLine`: intern the document id (skip the
record when invalid), intern the tags, store the de-duplicated tag set
(`std::set` order) in the forward index, and add every valid tag
occurrence to the inverted index. -/
def IndexManager.processParsedLine (m : Manager) (id_str : Str) (tags_str : List Str) : Manager :=
  let rd := Mapping.getId m.mapping id_str
  if rd.1 = INVALID_DOC_ID then { m with mapping := rd.2 }
  else
    let rt := IndexManager.internTags rd.2 tags_str
    let fwd2 := ForwardIndex.addTags m.fwd rd.1 (sortedDedup rt.1)
    let inv2 := rt.1.foldl (fun iv t => InvertedIndex.add iv rd.1 t) m.inv
    { mapping := rt.2, fwd := fwd2, inv := inv2 }

/-- Ingest a list of parsed records in order (the effect of one
`loadIncremental` pass on the indices, record application being strictly
sequential). -/
def IndexManager.ingestAll (m : Manager) : List (Str × List Str) → Manager
  | [] => m
  | (d, ts) :: rs => IndexManager.ingestAll (IndexManager.processParsedLine m d ts) rs

/-- The tag-translation loop of `IndexManager::queryTags`: intern each
query tag (the source uses the mutating `getTagId`), pushing valid ids;
on an invalid id, short-circuit to the empty result when the operator is
`AND`, or when it is `ANDNOT` and no id has been collected yet;
otherwise skip the tag.  Returns `none` on short-circuit, and the
mapping state the loop leaves behind. -/
def IndexManager.collectQueryIds (mp : MappingState) (op : BitmapOperation) (acc : List Nat) :
    List Str → Option (List Nat) × MappingState
  | [] => (some acc.reverse, mp)
  | s :: ss =>
    let r := Mapping.getTagId mp s
    if r.1 ≠ INVALID_TAG_ID then IndexManager.collectQueryIds r.2 op (r.1 :: acc) ss
    else if op = BitmapOperation.AND ∨ (op = BitmapOperation.ANDNOT ∧ acc = []) then
      (none, r.2)
    else IndexManager.collectQueryIds r.2 op acc ss

/-- `IndexManager::queryTags`: empty input gives the empty list; the
query tags are translated to ids (mutating the dictionary for unknown
tags), the bitmap operation is performed, and the resulting doc ids are
translated back in ascending order, silently dropping ids whose reverse
lookup is empty. -/
def IndexManager.queryTags (m : Manager) (tags : List Str) (op : BitmapOperation) :
    List Str × Manager :=
  if tags = [] then ([], m)
  else
    match IndexManager.collectQueryIds m.mapping op [] tags with
    | (none, mp2) => ([], { m with mapping := mp2 })
    | (some ids, mp2) =>
      if ids = [] ∧ op ≠ BitmapOperation.AND then ([], { m with mapping := mp2 })
      else
        let bm := InvertedIndex.performOperation m.inv ids op
        let res := (Bitmap.ascList bm).filterMap (fun d =>
          let s := Mapping.getStringId mp2 d
          if s = [] then none else some s)
        (res, { m with mapping := mp2 })

/-- `IndexManager::getTagsForDocument`: translate the document string
(the source uses the mutating `getId`), return empty when the id is
invalid or at/beyond the forward index's size, else translate the
stored tag ids back, silently dropping empty reverse lookups. -/
def IndexManager.getTagsForDocument (m : Manager) (doc_id_str : Str) :
    List Str × Manager :=
  let rd := Mapping.getId m.mapping doc_id_str
  if rd.1 = INVALID_DOC_ID ∨ ForwardIndex.getDocCount m.fwd ≤ rd.1 then
    ([], { m with mapping := rd.2 })
  else
    let tag_ids := ForwardIndex.getTags m.fwd rd.1
    (tag_ids.filterMap (fun t =>
      let s := Mapping.getStringTag rd.2 t
      if s = [] then none else some s), { m with mapping := rd.2 })

/-- `IndexManager::getDocumentCount`. -/
def IndexManager.getDocumentCount (m : Manager) : Nat := Mapping.getDocCount m.mapping

/-- `IndexManager::getTagCount`. -/
def IndexManager.getTagCount (m : Manager) : Nat := Mapping.getTagCount m.mapping

/-! ### Persistence codec

`Mapping::save/load`, `ForwardIndex::save/load` and
`InvertedIndex::save/load` write length-prefixed binary streams with the
helpers above.  On a mid-stream read failure each `load` returns `false`
with exactly the state the C++ code leaves behind at that point. -/

/-- `write_string`: `u64` length, then the bytes. -/
def writeStr (s : Str) : List Nat := write64 s.length ++ s

/-- `read_string`: read the `u64` length, then that many bytes; fail
when the stream is too short. -/
def readStr (s : List Nat) : Option (Str × List Nat) :=
  match read64 s with
  | none => none
  | some (len, rest) =>
    if len ≤ rest.length then some (rest.take len, rest.drop len) else none

/-- The content a failed `read_string` leaves in the destination slot:
untouched (empty, from the enclosing `resize`) when the length read
fails, else the available bytes zero-padded to the announced length
(`str.resize(len)` fills with `\0`, the partial `read` overwrites a
prefix). -/
def failSlot (s : List Nat) : Str :=
  match read64 s with
  | none => []
  | some (len, rest) => rest.take len ++ List.replicate (len - rest.length) 0

/-- The string-reading loop of `Mapping::load`: read `n` strings.  The
slot vector was resized to `n` beforehand, so on failure the result is
the successfully read prefix, then the partially read slot, then empty
slots. -/
def loadStrings : Nat → List Nat → List Str × List Nat × Bool
  | 0, s => ([], s, true)
  | k + 1, s =>
    match readStr s with
    | some (str, rest) =>
      let r := loadStrings k rest
      (str :: r.1, r.2.1, r.2.2)
    | none => (failSlot s :: List.replicate k [], s, false)

/-- `Mapping::save`: doc vector size and strings, then tag vector size
and strings. -/
def Mapping.save (st : MappingState) : List Nat :=
  write64 st.docs.length ++ (st.docs.map writeStr).flatten ++
    write64 st.tags.length ++ (st.tags.map writeStr).flatten

/-- `Mapping::load`: clear, then read both vectors (an entirely empty
stream is a valid empty mapping); returns `false` on a short stream,
leaving whatever had been rebuilt so far. -/
def Mapping.load (s : List Nat) : Bool × MappingState :=
  if s = [] then (true, MappingState.empty)
  else
    match read64 s with
    | none => (false, MappingState.empty)
    | some (dsize, rest) =>
      let rd := loadStrings dsize rest
      if rd.2.2 = false then (false, ⟨rd.1, []⟩)
      else
        match read64 rd.2.1 with
        | none => (false, ⟨rd.1, []⟩)
        | some (tsize, rest2) =>
          let rt := loadStrings tsize rest2
          if rt.2.2 = false then (false, ⟨rd.1, rt.1⟩)
          else (true, ⟨rd.1, rt.1⟩)

/-- The per-document tag-list writer of `ForwardIndex::save`: `u64`
count, then each tag id as `u32`. -/
def writeTagList (l : List Nat) : List Nat :=
  write64 l.length ++ (l.map write32).flatten

/-- The inner tag-reading loop of `ForwardIndex::load`: tag ids are
appended one by one, so on failure the slot holds the prefix read so
far. -/
def loadTagIds : Nat → List Nat → List Nat × List Nat × Bool
  | 0, s => ([], s, true)
  | k + 1, s =>
    match read32 s with
    | some (t, rest) =>
      let r := loadTagIds k rest
      (t :: r.1, r.2.1, r.2.2)
    | none => ([], s, false)

/-- The per-document loop of `ForwardIndex::load`: read `n` tag lists;
on failure the vector (resized to `n` beforehand) holds the loaded
prefix, the partial slot, then empty slots. -/
def loadTagLists : Nat → List Nat → FwdState × List Nat × Bool
  | 0, s => ([], s, true)
  | k + 1, s =>
    match read64 s with
    | none => (List.replicate (k + 1) [], s, false)
    | some (ntags, rest) =>
      let ri := loadTagIds ntags rest
      if ri.2.2 = false then (ri.1 :: List.replicate k [], ri.2.1, false)
      else
        let r := loadTagLists k ri.2.1
        (ri.1 :: r.1, r.2.1, r.2.2)

/-- `ForwardIndex::save`: `u64` doc count, then each document's tag
list. -/
def ForwardIndex.save (fw : FwdState) : List Nat :=
  write64 fw.length ++ (fw.map writeTagList).flatten

/-- `ForwardIndex::load`: clear, then read the vector (an empty stream
is a valid empty index); `false` on a short stream. -/
def ForwardIndex.load (s : List Nat) : Bool × FwdState :=
  if s = [] then (true, [])
  else
    match read64 s with
    | none => (false, [])
    | some (ndocs, rest) =>
      let r := loadTagLists ndocs rest
      (r.2.2, r.1)

/-- Modelled from the spec: the roaring bitmap's portable
self-describing serialization (`Roaring::write(_, true)` /
`Roaring::readSafe`), whose implementation lives in the external
CRoaring library, is modelled as the ascending list of members, each as
a 4-byte little-endian word; `getSizeInBytes(true)` is the length of
that encoding.  The decoder folds the 4-byte words back into a set. -/
def serBitmap (b : Bitmap) : List Nat :=
  ((Bitmap.ascList b).map write32).flatten

/-- Modelled from the spec: the matching deserializer (see
`serBitmap`). -/
def deserBitmap : List Nat → Bitmap
  | b0 :: b1 :: b2 :: b3 :: rest => insert (decodeLE [b0, b1, b2, b3]) (deserBitmap rest)
  | _ => ∅

/-- `InvertedIndex::save`: `u64` slot count, then per slot the
serialized size as `u32` (the C++ casts `getSizeInBytes` to `uint32_t`)
followed by the serialized bytes (nothing when the size is 0). -/
def InvertedIndex.save (iv : InvState) : List Nat :=
  write64 iv.length ++
    (iv.map (fun b => write32 ((serBitmap b).length % 4294967296) ++ serBitmap b)).flatten

/-- The per-slot loop of `InvertedIndex::load`: read `n` sizes and
payloads; the slot vector was cleared and resized to `n` after the
count was read, so on failure the loaded prefix is followed by empty
slots. -/
def loadBitmaps : Nat → List Nat → InvState × List Nat × Bool
  | 0, s => ([], s, true)
  | k + 1, s =>
    match read32 s with
    | none => (List.replicate (k + 1) ∅, s, false)
    | some (sz, rest) =>
      if sz = 0 then
        let r := loadBitmaps k rest
        (∅ :: r.1, r.2.1, r.2.2)
      else if sz ≤ rest.length then
        let r := loadBitmaps k (rest.drop sz)
        (deserBitmap (rest.take sz) :: r.1, r.2.1, r.2.2)
      else (∅ :: List.replicate k ∅, rest, false)

/-- `InvertedIndex::load`: an empty stream is a valid empty index and
clears the slots; if reading the slot count fails otherwise, the method
returns `false` WITHOUT clearing, keeping the stale slots; after the
count is read the vector is cleared and resized, and a later failure
leaves that partially filled vector. -/
def InvertedIndex.load (stale : InvState) (s : List Nat) : Bool × InvState :=
  if s = [] then (true, [])
  else
    match read64 s with
    | none => (false, stale)
    | some (n, rest) =>
      let r := loadBitmaps n rest
      (r.2.2, r.1)

/-- `save(directory)` writes the three component files.  The component
writers are embedded from the source; the manager-level composition is
not implemented in the repository (a TODO in `index_manager.h`).
Modelled from the spec: save order dictionary, forward, inverted, each
to its own file. -/
def IndexManager.save (m : Manager) : List Nat × List Nat × List Nat :=
  (Mapping.save m.mapping, ForwardIndex.save m.fwd, InvertedIndex.save m.inv)

/-- `load(directory)` reads the three component files in the same
order.  Modelled from the spec: load order identical to save order;
the call fails when any component's `load` fails; each component's
`load` is the one embedded from the source. -/
def IndexManager.load (m : Manager) (files : List Nat × List Nat × List Nat) :
    Bool × Manager :=
  let rm := Mapping.load files.1
  if rm.1 = false then (false, { m with mapping := rm.2 })
  else
    let rf := ForwardIndex.load files.2.1
    if rf.1 = false then (false, { m with mapping := rm.2, fwd := rf.2 })
    else
      let ri := InvertedIndex.load m.inv files.2.2
      (ri.1, ⟨rm.2, rf.2, ri.2⟩)

/-- The size bounds under which the binary codec is lossless: vector
lengths fit in the `u64` length fields, strings fit their `u64` length
prefix, tag ids fit `u32`, and each bitmap's ids and serialized size fit
`u32` (the source casts the roaring `getSizeInBytes` to `uint32_t`). -/
def Manager.WF (m : Manager) : Prop :=
  (∀ s ∈ m.mapping.docs, s.length < 2 ^ 64) ∧
  (∀ s ∈ m.mapping.tags, s.length < 2 ^ 64) ∧
  m.mapping.docs.length < 2 ^ 64 ∧ m.mapping.tags.length < 2 ^ 64 ∧
  m.fwd.length < 2 ^ 64 ∧
  (∀ d ∈ m.fwd, d.length < 2 ^ 64 ∧ ∀ t ∈ d, t < 2 ^ 32) ∧
  m.inv.length < 2 ^ 64 ∧
  (∀ b ∈ m.inv, (∀ x ∈ b, x < 2 ^ 32) ∧ 4 * b.card < 2 ^ 32)

/-- The structural invariant ingestion maintains: id spaces stay below
the sentinels, stored strings fit their length prefix, the two indices
never outgrow the dictionary, forward slots hold valid tag ids, and
bitmaps hold valid doc ids. -/
structure ManagerInv (m : Manager) : Prop where
  docs_le : m.mapping.docs.length ≤ INVALID_DOC_ID
  tags_le : m.mapping.tags.length ≤ INVALID_TAG_ID
  docs_str : ∀ s ∈ m.mapping.docs, s.length < 2 ^ 64
  tags_str : ∀ s ∈ m.mapping.tags, s.length < 2 ^ 64
  fwd_le : m.fwd.length ≤ m.mapping.docs.length
  fwd_slots : ∀ d ∈ m.fwd, d.length ≤ m.mapping.tags.length ∧
    ∀ t ∈ d, t < m.mapping.tags.length
  inv_le : m.inv.length ≤ m.mapping.tags.length
  inv_elems : ∀ b ∈ m.inv, ∀ x ∈ b, x < m.mapping.docs.length

/-! ## Theorems -/

theorem lookupStr_eq_none {l : List Str} {s : Str} :
    lookupStr l s = none ↔ s ∉ l := by
  induction l with
  | nil => simp [lookupStr]
  | cons t ts ih =>
    by_cases h : t = s
    · simp [lookupStr, h]
    · simp [lookupStr, h, Option.map_eq_none', ih, Ne.symm h]

theorem lookupStr_some {l : List Str} {s : Str} {i : Nat}
    (h : lookupStr l s = some i) : i < l.length ∧ l.getD i [] = s := by
  induction l generalizing i with
  | nil => simp [lookupStr] at h
  | cons t ts ih =>
    by_cases ht : t = s
    · simp [lookupStr, ht] at h
      subst h
      simp [ht]
    · simp [lookupStr, ht] at h
      obtain ⟨j, hj, rfl⟩ := h
      obtain ⟨h1, h2⟩ := ih hj
      exact ⟨by simpa using h1, by simpa using h2⟩

theorem getD_append_self (l : List Str) (s : Str) :
    (l ++ [s]).getD l.length [] = s := by
  induction l with
  | nil => rfl
  | cons t ts ih => simp [ih]

/-- The `docs` vector of `getId`'s result state: unchanged, or the input
appended. -/
theorem Mapping.getId_docs (st : MappingState) (s : Str) :
    (Mapping.getId st s).2.docs = st.docs ∨
      (s ≠ [] ∧ (Mapping.getId st s).2.docs = st.docs ++ [s]) := by
  unfold Mapping.getId
  by_cases hs : s = []
  · simp [hs]
  · cases h : lookupStr st.docs s with
    | some i => simp [hs, h]
    | none =>
      by_cases hl : st.docs.length = INVALID_DOC_ID
      · simp [hs, h, hl]
      · simp [hs, h, hl]

theorem Mapping.getId_tags (st : MappingState) (s : Str) :
    (Mapping.getId st s).2.tags = st.tags := by
  unfold Mapping.getId
  by_cases hs : s = []
  · simp [hs]
  · cases h : lookupStr st.docs s with
    | some i => simp [hs, h]
    | none =>
      by_cases hl : st.docs.length = INVALID_DOC_ID
      · simp [hs, h, hl]
      · simp [hs, h, hl]

theorem Mapping.getTagId_tags (st : MappingState) (s : Str) :
    (Mapping.getTagId st s).2.tags = st.tags ∨
      (s ≠ [] ∧ (Mapping.getTagId st s).2.tags = st.tags ++ [s]) := by
  unfold Mapping.getTagId
  by_cases hs : s = []
  · simp [hs]
  · cases h : lookupStr st.tags s with
    | some i => simp [hs, h]
    | none =>
      by_cases hl : st.tags.length = INVALID_TAG_ID
      · simp [hs, h, hl]
      · simp [hs, h, hl]

theorem Mapping.getTagId_docs (st : MappingState) (s : Str) :
    (Mapping.getTagId st s).2.docs = st.docs := by
  unfold Mapping.getTagId
  by_cases hs : s = []
  · simp [hs]
  · cases h : lookupStr st.tags s with
    | some i => simp [hs, h]
    | none =>
      by_cases hl : st.tags.length = INVALID_TAG_ID
      · simp [hs, h, hl]
      · simp [hs, h, hl]

/-- C8.  Interning the empty string is rejected without side effects:
`getId ""` returns `INVALID_DOC_ID` (and `getTagId ""` returns
`INVALID_TAG_ID`) with the dictionary state unchanged, so neither the
doc count nor the tag count grows. -/
theorem c8_intern_empty_rejected (st : MappingState) :
    Mapping.getId st [] = (INVALID_DOC_ID, st) ∧
    Mapping.getTagId st [] = (INVALID_TAG_ID, st) ∧
    Mapping.getDocCount (Mapping.getId st []).2 = Mapping.getDocCount st ∧
    Mapping.getTagCount (Mapping.getTagId st []).2 = Mapping.getTagCount st := by
  refine ⟨rfl, rfl, ?_, ?_⟩ <;> rfl

theorem Mapping.getStringId_of_lookup {st : MappingState} {s : Str} {i : Nat}
    (h : lookupStr st.docs s = some i) : Mapping.getStringId st i = s := by
  obtain ⟨h1, h2⟩ := lookupStr_some h
  unfold Mapping.getStringId
  rw [if_pos h1]
  exact h2

theorem Mapping.getStringTag_of_lookup {st : MappingState} {s : Str} {i : Nat}
    (h : lookupStr st.tags s = some i) : Mapping.getStringTag st i = s := by
  obtain ⟨h1, h2⟩ := lookupStr_some h
  unfold Mapping.getStringTag
  rw [if_pos h1]
  exact h2

theorem Mapping.getId_roundtrip (st : MappingState) (s : Str) (hs : s ≠ [])
    (hroom : s ∈ st.docs ∨ st.docs.length < INVALID_DOC_ID) :
    Mapping.getStringId (Mapping.getId st s).2 (Mapping.getId st s).1 = s := by
  unfold Mapping.getId
  cases h : lookupStr st.docs s with
  | some i => simpa [hs, h] using Mapping.getStringId_of_lookup h
  | none =>
    have hnotmem : s ∉ st.docs := lookupStr_eq_none.mp h
    have hlt : st.docs.length < INVALID_DOC_ID := by
      cases hroom with
      | inl hmem => exact absurd hmem hnotmem
      | inr hlt => exact hlt
    simp only [hs, if_false, h]
    simp [Nat.ne_of_lt hlt, Mapping.getStringId, Nat.lt_succ_self,
      getD_append_self]

theorem Mapping.getTagId_roundtrip (st : MappingState) (s : Str) (hs : s ≠ [])
    (hroom : s ∈ st.tags ∨ st.tags.length < INVALID_TAG_ID) :
    Mapping.getStringTag (Mapping.getTagId st s).2 (Mapping.getTagId st s).1 = s := by
  unfold Mapping.getTagId
  cases h : lookupStr st.tags s with
  | some i => simpa [hs, h] using Mapping.getStringTag_of_lookup h
  | none =>
    have hnotmem : s ∉ st.tags := lookupStr_eq_none.mp h
    have hlt : st.tags.length < INVALID_TAG_ID := by
      cases hroom with
      | inl hmem => exact absurd hmem hnotmem
      | inr hlt => exact hlt
    simp only [hs, if_false, h]
    simp [Nat.ne_of_lt hlt, Mapping.getStringTag, Nat.lt_succ_self,
      getD_append_self]

theorem Mapping.internDocs_fresh (ss : List Str) :
    ∀ st : MappingState, ss.Nodup → (∀ t ∈ ss, t ≠ []) →
      (∀ t ∈ ss, t ∉ st.docs) → st.docs.length + ss.length ≤ INVALID_DOC_ID →
      (Mapping.internDocs st ss).1 = List.range' st.docs.length ss.length ∧
      (Mapping.internDocs st ss).2.docs = st.docs ++ ss := by
  induction ss with
  | nil => intro st _ _ _ _; simp [Mapping.internDocs]
  | cons s ss ih =>
    intro st hnd hne hdisj hlen
    have hs : s ≠ [] := hne s (List.mem_cons_self s ss)
    have hnot : s ∉ st.docs := hdisj s (List.mem_cons_self s ss)
    have hlook : lookupStr st.docs s = none := lookupStr_eq_none.mpr hnot
    have hlt : st.docs.length < INVALID_DOC_ID := by
      have : st.docs.length + (s :: ss).length ≤ INVALID_DOC_ID := hlen
      simp [List.length_cons] at this
      omega
    have hstep : Mapping.getId st s =
        (st.docs.length, { st with docs := st.docs ++ [s] }) := by
      unfold Mapping.getId
      simp [hs, hlook, Nat.ne_of_lt hlt]
    have hrec := ih { st with docs := st.docs ++ [s] }
      (List.Nodup.of_cons hnd)
      (fun t ht => hne t (List.mem_cons_of_mem s ht))
      (by
        intro t ht
        simp only [List.mem_append, List.mem_singleton]
        rintro (h1 | h1)
        · exact hdisj t (List.mem_cons_of_mem s ht) h1
        · exact (List.nodup_cons.mp hnd).1 (h1 ▸ ht))
      (by simp [List.length_cons] at hlen ⊢; omega)
    constructor
    · show (Mapping.internDocs st (s :: ss)).1 = _
      unfold Mapping.internDocs
      simp only [hstep, hrec.1]
      simp [List.range'_succ]
    · show (Mapping.internDocs st (s :: ss)).2.docs = _
      unfold Mapping.internDocs
      simp only [hstep, hrec.2]
      simp

theorem Mapping.internTagsSeq_fresh (ss : List Str) :
    ∀ st : MappingState, ss.Nodup → (∀ t ∈ ss, t ≠ []) →
      (∀ t ∈ ss, t ∉ st.tags) → st.tags.length + ss.length ≤ INVALID_TAG_ID →
      (Mapping.internTagsSeq st ss).1 = List.range' st.tags.length ss.length ∧
      (Mapping.internTagsSeq st ss).2.tags = st.tags ++ ss := by
  induction ss with
  | nil => intro st _ _ _ _; simp [Mapping.internTagsSeq]
  | cons s ss ih =>
    intro st hnd hne hdisj hlen
    have hs : s ≠ [] := hne s (List.mem_cons_self s ss)
    have hnot : s ∉ st.tags := hdisj s (List.mem_cons_self s ss)
    have hlook : lookupStr st.tags s = none := lookupStr_eq_none.mpr hnot
    have hlt : st.tags.length < INVALID_TAG_ID := by
      have : st.tags.length + (s :: ss).length ≤ INVALID_TAG_ID := hlen
      simp [List.length_cons] at this
      omega
    have hstep : Mapping.getTagId st s =
        (st.tags.length, { st with tags := st.tags ++ [s] }) := by
      unfold Mapping.getTagId
      simp [hs, hlook, Nat.ne_of_lt hlt]
    have hrec := ih { st with tags := st.tags ++ [s] }
      (List.Nodup.of_cons hnd)
      (fun t ht => hne t (List.mem_cons_of_mem s ht))
      (by
        intro t ht
        simp only [List.mem_append, List.mem_singleton]
        rintro (h1 | h1)
        · exact hdisj t (List.mem_cons_of_mem s ht) h1
        · exact (List.nodup_cons.mp hnd).1 (h1 ▸ ht))
      (by simp [List.length_cons] at hlen ⊢; omega)
    constructor
    · show (Mapping.internTagsSeq st (s :: ss)).1 = _
      unfold Mapping.internTagsSeq
      simp only [hstep, hrec.1]
      simp [List.range'_succ]
    · show (Mapping.internTagsSeq st (s :: ss)).2.tags = _
      unfold Mapping.internTagsSeq
      simp only [hstep, hrec.2]
      simp

/-- C7.  Dictionary round-trip and monotonic id assignment: interning a
non-empty string and reverse-looking-up the returned id yields the
string back (documents and tags); and interning a sequence of distinct
non-empty strings into an empty dictionary assigns ids `0, 1, 2, …` in
order, on both the document and the tag side. -/
theorem c7_dictionary_roundtrip_and_monotonic
    (s : Str) (st : MappingState) (ss : List Str) (hs : s ≠ [])
    (hdoc : s ∈ st.docs ∨ st.docs.length < INVALID_DOC_ID)
    (htag : s ∈ st.tags ∨ st.tags.length < INVALID_TAG_ID)
    (hnd : ss.Nodup) (hne : ∀ t ∈ ss, t ≠ [])
    (hlen : ss.length ≤ INVALID_DOC_ID) :
    Mapping.getStringId (Mapping.getId st s).2 (Mapping.getId st s).1 = s ∧
    Mapping.getStringTag (Mapping.getTagId st s).2 (Mapping.getTagId st s).1 = s ∧
    (Mapping.internDocs MappingState.empty ss).1 = List.range ss.length ∧
    (Mapping.internTagsSeq MappingState.empty ss).1 = List.range ss.length := by
  refine ⟨Mapping.getId_roundtrip st s hs hdoc,
    Mapping.getTagId_roundtrip st s hs htag, ?_, ?_⟩
  · have := (Mapping.internDocs_fresh ss MappingState.empty hnd hne
      (by simp [MappingState.empty]) (by simpa [MappingState.empty] using hlen)).1
    simpa [MappingState.empty, List.range_eq_range'] using this
  · have := (Mapping.internTagsSeq_fresh ss MappingState.empty hnd hne
      (by simp [MappingState.empty]) (by simpa [MappingState.empty] using hlen)).1
    simpa [MappingState.empty, List.range_eq_range'] using this

/-- Closed instance of `c7_dictionary_roundtrip_and_monotonic` at a
concrete dictionary and string sequence. -/
theorem c7_witness :
    Mapping.getStringId (Mapping.getId MappingState.empty [97]).2
        (Mapping.getId MappingState.empty [97]).1 = [97] ∧
    Mapping.getStringTag (Mapping.getTagId MappingState.empty [97]).2
        (Mapping.getTagId MappingState.empty [97]).1 = [97] ∧
    (Mapping.internDocs MappingState.empty [[97], [98]]).1 = List.range 2 ∧
    (Mapping.internTagsSeq MappingState.empty [[97], [98]]).1 = List.range 2 :=
  c7_dictionary_roundtrip_and_monotonic [97] MappingState.empty [[97], [98]]
    (by decide) (Or.inr (by decide)) (Or.inr (by decide))
    (by decide) (by decide) (by decide)

/-- A dictionary built only by interning never stores an empty
string. -/
theorem Mapping.reachable_no_empty {st : MappingState}
    (h : Mapping.Reachable st) :
    (∀ s ∈ st.docs, s ≠ []) ∧ (∀ s ∈ st.tags, s ≠ []) := by
  induction h with
  | empty => simp [MappingState.empty]
  | stepDoc st s _ ih =>
    constructor
    · intro t ht
      rcases Mapping.getId_docs st s with hcase | ⟨hne, hcase⟩
      · exact ih.1 t (hcase ▸ ht)
      · rw [hcase] at ht
        rcases List.mem_append.mp ht with h1 | h1
        · exact ih.1 t h1
        · simpa using (List.mem_singleton.mp h1) ▸ hne
    · intro t ht
      exact ih.2 t (Mapping.getId_tags st s ▸ ht)
  | stepTag st s _ ih =>
    constructor
    · intro t ht
      exact ih.1 t (Mapping.getTagId_docs st s ▸ ht)
    · intro t ht
      rcases Mapping.getTagId_tags st s with hcase | ⟨hne, hcase⟩
      · exact ih.2 t (hcase ▸ ht)
      · rw [hcase] at ht
        rcases List.mem_append.mp ht with h1 | h1
        · exact ih.2 t h1
        · simpa using (List.mem_singleton.mp h1) ▸ hne

/-- C10.  On every dictionary state built only by interning, reverse
lookup returns the empty string exactly for ids at or beyond the
respective count: stored strings are never empty, so "" is an
unambiguous absence sentinel. -/
theorem c10_empty_string_absence_sentinel (st : MappingState)
    (h : Mapping.Reachable st) (id : Nat) :
    (Mapping.getStringId st id = [] ↔ Mapping.getDocCount st ≤ id) ∧
    (Mapping.getStringTag st id = [] ↔ Mapping.getTagCount st ≤ id) := by
  constructor
  · unfold Mapping.getStringId Mapping.getDocCount
    by_cases hlt : id < st.docs.length
    · rw [if_pos hlt]
      have hmem : st.docs.getD id [] ∈ st.docs := by
        rw [List.getD_eq_getElem?_getD, List.getElem?_eq_getElem hlt]
        exact List.getElem_mem hlt
      constructor
      · intro he
        exact absurd he ((Mapping.reachable_no_empty h).1 _ hmem)
      · intro hle
        omega
    · rw [if_neg hlt]
      simp
      omega
  · unfold Mapping.getStringTag Mapping.getTagCount
    by_cases hlt : id < st.tags.length
    · rw [if_pos hlt]
      have hmem : st.tags.getD id [] ∈ st.tags := by
        rw [List.getD_eq_getElem?_getD, List.getElem?_eq_getElem hlt]
        exact List.getElem_mem hlt
      constructor
      · intro he
        exact absurd he ((Mapping.reachable_no_empty h).2 _ hmem)
      · intro hle
        omega
    · rw [if_neg hlt]
      simp
      omega

/-- Closed instance of `c10_empty_string_absence_sentinel` on the
reachable state obtained by interning one document and one tag. -/
theorem c10_witness :
    (Mapping.getStringId
        (Mapping.getTagId (Mapping.getId MappingState.empty [100]).2 [97]).2 0 = [] ↔
      Mapping.getDocCount
        (Mapping.getTagId (Mapping.getId MappingState.empty [100]).2 [97]).2 ≤ 0) ∧
    (Mapping.getStringTag
        (Mapping.getTagId (Mapping.getId MappingState.empty [100]).2 [97]).2 0 = [] ↔
      Mapping.getTagCount
        (Mapping.getTagId (Mapping.getId MappingState.empty [100]).2 [97]).2 ≤ 0) :=
  c10_empty_string_absence_sentinel _
    (Mapping.Reachable.stepTag _ [97]
      (Mapping.Reachable.stepDoc _ [100] Mapping.Reachable.empty)) 0

theorem InvertedIndex.getBitmap_eq_none_iff (iv : InvState) (t : Nat) :
    InvertedIndex.getBitmap iv t = none ↔ t = INVALID_TAG_ID ∨ iv.length ≤ t := by
  unfold InvertedIndex.getBitmap
  by_cases h1 : t = INVALID_TAG_ID
  · simp [h1]
  · by_cases h2 : t < iv.length
    · simp [h1, h2]
    · simp [h1, h2]
      omega

theorem InvertedIndex.mem_andnotRight (iv : InvState) (l : List Nat) (x : Nat) :
    x ∈ InvertedIndex.andnotRight iv l ↔
      ∃ t ∈ l, ∃ bt, InvertedIndex.getBitmap iv t = some bt ∧ x ∈ bt := by
  induction l with
  | nil => simp [InvertedIndex.andnotRight]
  | cons t ts ih =>
    unfold InvertedIndex.andnotRight
    cases h : InvertedIndex.getBitmap iv t with
    | none => simp [ih, h]
    | some bt => simp [ih, h]

theorem InvertedIndex.orLoop_eq (iv : InvState) (l : List Nat) :
    ∀ acc : Bitmap, InvertedIndex.orLoop iv acc l =
      (l.filterMap (InvertedIndex.getBitmap iv)).foldl (· ∪ ·) acc := by
  induction l with
  | nil => intro acc; simp [InvertedIndex.orLoop]
  | cons t ts ih =>
    intro acc
    unfold InvertedIndex.orLoop
    cases h : InvertedIndex.getBitmap iv t with
    | none => simp [h, ih]
    | some bt => simp [h, ih]

theorem InvertedIndex.xorLoop_eq (iv : InvState) (l : List Nat) :
    ∀ acc : Bitmap, InvertedIndex.xorLoop iv acc l =
      (l.filterMap (InvertedIndex.getBitmap iv)).foldl symmDiff acc := by
  induction l with
  | nil => intro acc; simp [InvertedIndex.xorLoop]
  | cons t ts ih =>
    intro acc
    unfold InvertedIndex.xorLoop
    cases h : InvertedIndex.getBitmap iv t with
    | none => simp [h, ih]
    | some bt => simp [h, ih]

theorem foldl_inter_empty (l : List Bitmap) :
    l.foldl (· ∩ ·) (∅ : Bitmap) = ∅ := by
  induction l with
  | nil => rfl
  | cons b bs ih => simpa using ih

theorem InvertedIndex.andLoop_cons_none {iv : InvState} {t : Nat}
    (ts : List Nat) (acc : Bitmap) (h : InvertedIndex.getBitmap iv t = none) :
    InvertedIndex.andLoop iv acc (t :: ts) = ∅ := by
  simp [InvertedIndex.andLoop, h]

theorem InvertedIndex.andLoop_cons_some {iv : InvState} {t : Nat} {bt : Bitmap}
    (ts : List Nat) (acc : Bitmap)
    (h : InvertedIndex.getBitmap iv t = some bt) :
    InvertedIndex.andLoop iv acc (t :: ts) =
      if acc ∩ bt = ∅ then ∅ else InvertedIndex.andLoop iv (acc ∩ bt) ts := by
  simp [InvertedIndex.andLoop, h]

theorem InvertedIndex.andLoop_all_present (iv : InvState) (l : List Nat)
    (hall : ∀ t ∈ l, (InvertedIndex.getBitmap iv t).isSome) :
    ∀ acc : Bitmap, InvertedIndex.andLoop iv acc l =
      (l.filterMap (InvertedIndex.getBitmap iv)).foldl (· ∩ ·) acc := by
  induction l with
  | nil => intro acc; simp [InvertedIndex.andLoop]
  | cons t ts ih =>
    intro acc
    have ht := hall t (List.mem_cons_self t ts)
    obtain ⟨bt, hbt⟩ := Option.isSome_iff_exists.mp ht
    rw [InvertedIndex.andLoop_cons_some ts acc hbt]
    simp only [List.filterMap_cons, hbt, List.foldl_cons]
    rw [ih (fun t' ht' => hall t' (List.mem_cons_of_mem t ht'))]
    by_cases hr : acc ∩ bt = ∅
    · rw [if_pos hr, hr, foldl_inter_empty]
    · rw [if_neg hr]

theorem InvertedIndex.andLoop_missing (iv : InvState) (l : List Nat)
    (hmiss : ∃ t ∈ l, InvertedIndex.getBitmap iv t = none) :
    ∀ acc : Bitmap, InvertedIndex.andLoop iv acc l = ∅ := by
  induction l with
  | nil => simp at hmiss
  | cons t ts ih =>
    intro acc
    cases h : InvertedIndex.getBitmap iv t with
    | none => exact InvertedIndex.andLoop_cons_none ts acc h
    | some bt =>
      rw [InvertedIndex.andLoop_cons_some ts acc h]
      by_cases hr : acc ∩ bt = ∅
      · rw [if_pos hr]
      · rw [if_neg hr]
        have hrest : ∃ t' ∈ ts, InvertedIndex.getBitmap iv t' = none := by
          obtain ⟨t', ht', hn⟩ := hmiss
          rcases List.mem_cons.mp ht' with rfl | hmem
          · rw [h] at hn
            exact absurd hn (by simp)
          · exact ⟨t', hmem, hn⟩
        exact ih hrest (acc ∩ bt)

theorem InvertedIndex.performOperation_cons_none {iv : InvState} {first : Nat}
    (rest : List Nat) (op : BitmapOperation)
    (h : InvertedIndex.getBitmap iv first = none) :
    InvertedIndex.performOperation iv (first :: rest) op = ∅ := by
  simp [InvertedIndex.performOperation, h]

theorem InvertedIndex.performOperation_and {iv : InvState} {first : Nat}
    {b : Bitmap} (rest : List Nat)
    (h : InvertedIndex.getBitmap iv first = some b) :
    InvertedIndex.performOperation iv (first :: rest) BitmapOperation.AND =
      InvertedIndex.andLoop iv b rest := by
  simp [InvertedIndex.performOperation, h]

theorem InvertedIndex.performOperation_or {iv : InvState} {first : Nat}
    {b : Bitmap} (rest : List Nat)
    (h : InvertedIndex.getBitmap iv first = some b) :
    InvertedIndex.performOperation iv (first :: rest) BitmapOperation.OR =
      InvertedIndex.orLoop iv b rest := by
  simp [InvertedIndex.performOperation, h]

theorem InvertedIndex.performOperation_xor {iv : InvState} {first : Nat}
    {b : Bitmap} (rest : List Nat)
    (h : InvertedIndex.getBitmap iv first = some b) :
    InvertedIndex.performOperation iv (first :: rest) BitmapOperation.XOR =
      InvertedIndex.xorLoop iv b rest := by
  simp [InvertedIndex.performOperation, h]

theorem InvertedIndex.performOperation_andnot {iv : InvState} {first : Nat}
    {b : Bitmap} (rest : List Nat)
    (h : InvertedIndex.getBitmap iv first = some b) :
    InvertedIndex.performOperation iv (first :: rest) BitmapOperation.ANDNOT =
      if rest = [] then b else b \ InvertedIndex.andnotRight iv rest := by
  simp [InvertedIndex.performOperation, h]

/-- C4.  `performOperation` on an empty tag list is the empty bitmap,
and whenever the first tag is missing — equivalently, it is the
sentinel or has no slot — the result is empty under every operator
(including `OR` and `XOR`). -/
theorem c4_empty_input_and_missing_first (iv : InvState) (op : BitmapOperation)
    (first : Nat) (rest : List Nat)
    (h : InvertedIndex.getBitmap iv first = none) :
    InvertedIndex.performOperation iv [] op = ∅ ∧
    InvertedIndex.performOperation iv (first :: rest) op = ∅ ∧
    (first = INVALID_TAG_ID ∨ iv.length ≤ first) :=
  ⟨rfl, InvertedIndex.performOperation_cons_none rest op h,
    (InvertedIndex.getBitmap_eq_none_iff iv first).mp h⟩

/-- Closed instance of `c4_empty_input_and_missing_first`: tag 5 has no
slot in a one-slot index, so an `OR` query led by it is empty. -/
theorem c4_witness :
    InvertedIndex.performOperation [({3} : Finset Nat)] [5, 0]
      BitmapOperation.OR = ∅ :=
  (c4_empty_input_and_missing_first [{3}] BitmapOperation.OR 5 [0]
    (by decide)).2.1

/-- C3.  With a present first tag, `ANDNOT` returns the first bitmap
minus the union of the bitmaps of the valid ids in `rest`; missing ids
in `rest` contribute nothing to the subtrahend, and a single-element
list returns the first bitmap itself. -/
theorem c3_andnot_subtrahend_union (iv : InvState) (first : Nat)
    (rest : List Nat) (b : Bitmap)
    (h : InvertedIndex.getBitmap iv first = some b) :
    (∀ x, x ∈ InvertedIndex.performOperation iv (first :: rest)
        BitmapOperation.ANDNOT ↔
      (x ∈ b ∧ ∀ t ∈ rest, ∀ bt, InvertedIndex.getBitmap iv t = some bt →
        x ∉ bt)) ∧
    InvertedIndex.performOperation iv [first] BitmapOperation.ANDNOT = b := by
  constructor
  · intro x
    rw [InvertedIndex.performOperation_andnot rest h]
    by_cases hrest : rest = []
    · subst hrest
      simp
    · rw [if_neg hrest]
      simp only [Finset.mem_sdiff, InvertedIndex.mem_andnotRight]
      constructor
      · rintro ⟨hx, hnot⟩
        refine ⟨hx, ?_⟩
        intro t ht bt hbt hxbt
        exact hnot ⟨t, ht, bt, hbt, hxbt⟩
      · rintro ⟨hx, hall⟩
        refine ⟨hx, ?_⟩
        rintro ⟨t, ht, bt, hbt, hxbt⟩
        exact hall t ht bt hbt hxbt
  · rw [InvertedIndex.performOperation_andnot [] h]
    simp

/-- Closed instance of `c3_andnot_subtrahend_union`: a singleton
`ANDNOT` query returns the first bitmap unchanged. -/
theorem c3_witness :
    InvertedIndex.performOperation
      [({1, 2, 3} : Finset Nat), {2, 3, 4}, {3}] [0]
      BitmapOperation.ANDNOT = {1, 2, 3} :=
  (c3_andnot_subtrahend_union [{1, 2, 3}, {2, 3, 4}, {3}] 0 [] {1, 2, 3}
    (by decide)).2

/-- C5.  With a present first tag: `AND` folds intersection over the
remaining tags and yields the empty bitmap whenever any of them is
missing (and early termination on an empty running result does not
change the answer); `OR` and `XOR` skip missing tags and fold union
(respectively symmetric difference) over the present ones. -/
theorem c5_fold_semantics (iv : InvState) (first : Nat) (rest : List Nat)
    (b : Bitmap) (h : InvertedIndex.getBitmap iv first = some b) :
    ((∀ t ∈ rest, (InvertedIndex.getBitmap iv t).isSome) →
      InvertedIndex.performOperation iv (first :: rest) BitmapOperation.AND =
        (rest.filterMap (InvertedIndex.getBitmap iv)).foldl (· ∩ ·) b) ∧
    ((∃ t ∈ rest, InvertedIndex.getBitmap iv t = none) →
      InvertedIndex.performOperation iv (first :: rest) BitmapOperation.AND =
        ∅) ∧
    InvertedIndex.performOperation iv (first :: rest) BitmapOperation.OR =
      (rest.filterMap (InvertedIndex.getBitmap iv)).foldl (· ∪ ·) b ∧
    InvertedIndex.performOperation iv (first :: rest) BitmapOperation.XOR =
      (rest.filterMap (InvertedIndex.getBitmap iv)).foldl symmDiff b := by
  refine ⟨?_, ?_, ?_, ?_⟩
  · intro hall
    rw [InvertedIndex.performOperation_and rest h]
    exact InvertedIndex.andLoop_all_present iv rest hall b
  · intro hmiss
    rw [InvertedIndex.performOperation_and rest h]
    exact InvertedIndex.andLoop_missing iv rest hmiss b
  · rw [InvertedIndex.performOperation_or rest h]
    exact InvertedIndex.orLoop_eq iv rest b
  · rw [InvertedIndex.performOperation_xor rest h]
    exact InvertedIndex.xorLoop_eq iv rest b

/-- Closed instance of `c5_fold_semantics`: an `OR` query whose second
tag has no slot folds union over the present tags only. -/
theorem c5_witness :
    InvertedIndex.performOperation
      [({1, 2} : Finset Nat), {2, 3}] [0, 9, 1] BitmapOperation.OR =
      ([9, 1].filterMap
        (InvertedIndex.getBitmap [({1, 2} : Finset Nat), {2, 3}])).foldl
        (· ∪ ·) {1, 2} :=
  (c5_fold_semantics [{1, 2}, {2, 3}] 0 [9, 1] {1, 2} (by decide)).2.2.1

theorem splitKeep_ne_nil (d : Nat) (s : Str) : splitKeep d s ≠ [] := by
  cases s with
  | nil => simp [splitKeep]
  | cons b bs =>
    unfold splitKeep
    cases h : splitKeep d bs with
    | nil => simp
    | cons p ps =>
      by_cases hb : b = d
      · simp [hb]
      · simp [hb]

/-- `parseLine` fails exactly when the first field trims to empty. -/
theorem CsvParser.parseLine_eq_none_iff (delim : Nat) (t : Str) :
    CsvParser.parseLine delim t = none ↔
      trimCopy ((splitKeep delim t).headD []) = [] := by
  cases h : splitKeep delim t with
  | nil => exact absurd h (splitKeep_ne_nil delim t)
  | cons p ps =>
    unfold CsvParser.parseLine
    rw [h]
    by_cases hp : trimCopy p = []
    · simp [hp]
    · simp [hp]

/-- C9.  `parseStream` returns `false` exactly on unrecoverable stream
errors (a failed seek to a positive start offset, or the `bad` bit);
wholly-whitespace lines are skipped silently; a line whose first field
is empty after trimming contributes no record, is counted as malformed,
and parsing continues with the remaining lines (so the call still
returns `true` on a healthy stream). -/
theorem c9_parse_stream_errors (delim off : Nat) (st : InStream)
    (l : Str) (ls : List Str) :
    ((CsvParser.parseStream delim st off).2.2 = false ↔
      ((0 < off ∧ st.seekOk = false) ∨ st.badBit = true)) ∧
    (trimCopy l = [] →
      CsvParser.processLines delim (l :: ls) = CsvParser.processLines delim ls) ∧
    (trimCopy l ≠ [] →
      trimCopy ((splitKeep delim (trimCopy l)).headD []) = [] →
      CsvParser.processLines delim (l :: ls) =
        ((CsvParser.processLines delim ls).1,
          (CsvParser.processLines delim ls).2 + 1)) := by
  refine ⟨?_, ?_, ?_⟩
  · unfold CsvParser.parseStream
    by_cases hseek : 0 < off ∧ st.seekOk = false
    · simp [hseek]
    · simp [hseek]
  · intro h
    simp [CsvParser.processLines, h]
  · intro h1 h2
    have hnone : CsvParser.parseLine delim (trimCopy l) = none :=
      (CsvParser.parseLine_eq_none_iff delim (trimCopy l)).mpr h2
    simp [CsvParser.processLines, h1, hnone]

/-- Closed instance of `c9_parse_stream_errors`: the line `" |a"` (first
field empty after trimming) is counted malformed and skipped. -/
theorem c9_witness :
    CsvParser.processLines 124 [[32, 124, 97]] =
      ((CsvParser.processLines 124 []).1,
        (CsvParser.processLines 124 []).2 + 1) :=
  (c9_parse_stream_errors 124 0 ⟨true, [[32, 124, 97]], false⟩
    [32, 124, 97] []).2.2 (by decide) (by decide)

/-- C1 (refuted: the code is not a pure reader).  Evaluating the query
paths of `IndexManager` at concrete inputs: querying the never-ingested
tag string `"z"` (byte 122) under `OR` on an empty manager returns the
empty result but interns the string, growing the tag count from 0 to 1;
likewise `getTagsForDocument` on the never-ingested document string
`"d"` (byte 100) returns empty but grows the doc count from 0 to 1.
Both paths call the mutating intern forms (`Mapping::getTagId`,
`Mapping::getId`). -/
theorem c1_queries_mutate_dictionary :
    IndexManager.getTagCount Manager.empty = 0 ∧
    (IndexManager.queryTags Manager.empty [[122]] BitmapOperation.OR).1 = [] ∧
    IndexManager.getTagCount
      (IndexManager.queryTags Manager.empty [[122]] BitmapOperation.OR).2 = 1 ∧
    IndexManager.getDocumentCount Manager.empty = 0 ∧
    (IndexManager.getTagsForDocument Manager.empty [100]).1 = [] ∧
    IndexManager.getDocumentCount
      (IndexManager.getTagsForDocument Manager.empty [100]).2 = 1 := by
  refine ⟨rfl, ?_, rfl, rfl, rfl, rfl⟩
  decide

/-- C2 (refuted: a failed component load is not always left empty).
`InvertedIndex::load` on a 3-byte stream (the slot-count read fails
other than at a clean end of stream) returns `false` and keeps the
stale pre-load slots; `Mapping::load` on a stream announcing one
document string and then ending returns `false` with a one-entry,
partially loaded doc vector. -/
theorem c2_load_failure_leaves_partial_state :
    (InvertedIndex.load [{5}] [0, 0, 0]).1 = false ∧
    (InvertedIndex.load [{5}] [0, 0, 0]).2 = [{5}] ∧
    (Mapping.load (write64 1)).1 = false ∧
    Mapping.getDocCount (Mapping.load (write64 1)).2 = 1 := by
  refine ⟨?_, ?_, ?_, ?_⟩ <;> decide

theorem encodeLE_length (k n : Nat) : (encodeLE k n).length = k := by
  induction k generalizing n with
  | zero => rfl
  | succ k ih => simp [encodeLE, ih]

theorem decodeLE_encodeLE (k n : Nat) : decodeLE (encodeLE k n) = n % 256 ^ k := by
  induction k generalizing n with
  | zero => simp [encodeLE, decodeLE, Nat.mod_one]
  | succ k ih =>
    show decodeLE ((n % 256) :: encodeLE k (n / 256)) = n % 256 ^ (k + 1)
    have hstep : decodeLE ((n % 256) :: encodeLE k (n / 256)) =
        n % 256 + 256 * decodeLE (encodeLE k (n / 256)) := rfl
    rw [hstep, ih]
    have hpow : 256 ^ (k + 1) = 256 * 256 ^ k := by ring
    rw [hpow]
    exact Nat.mod_mul.symm

theorem read64_write64 {n : Nat} (h : n < 2 ^ 64) (r : List Nat) :
    read64 (write64 n ++ r) = some (n, r) := by
  have hlen : (write64 n).length = 8 := encodeLE_length 8 n
  have hge : 8 ≤ (write64 n ++ r).length := by
    simp [hlen]
  unfold read64
  rw [if_pos hge]
  have htake : (write64 n ++ r).take 8 = write64 n := by
    conv_lhs => rw [← hlen]
    exact List.take_left _ _
  have hdrop : (write64 n ++ r).drop 8 = r := by
    conv_lhs => rw [← hlen]
    exact List.drop_left _ _
  rw [htake, hdrop]
  unfold write64
  rw [decodeLE_encodeLE]
  have h64 : (256 : Nat) ^ 8 = 2 ^ 64 := by norm_num
  rw [h64, Nat.mod_eq_of_lt h]

theorem read32_write32 {n : Nat} (h : n < 2 ^ 32) (r : List Nat) :
    read32 (write32 n ++ r) = some (n, r) := by
  have hlen : (write32 n).length = 4 := encodeLE_length 4 n
  have hge : 4 ≤ (write32 n ++ r).length := by
    simp [hlen]
  unfold read32
  rw [if_pos hge]
  have htake : (write32 n ++ r).take 4 = write32 n := by
    conv_lhs => rw [← hlen]
    exact List.take_left _ _
  have hdrop : (write32 n ++ r).drop 4 = r := by
    conv_lhs => rw [← hlen]
    exact List.drop_left _ _
  rw [htake, hdrop]
  unfold write32
  rw [decodeLE_encodeLE]
  have h32 : (256 : Nat) ^ 4 = 2 ^ 32 := by norm_num
  rw [h32, Nat.mod_eq_of_lt h]

theorem readStr_writeStr {s : Str} (h : s.length < 2 ^ 64) (r : List Nat) :
    readStr (writeStr s ++ r) = some (s, r) := by
  unfold readStr writeStr
  rw [List.append_assoc, read64_write64 h]
  dsimp only
  have hle : s.length ≤ (s ++ r).length := by simp
  rw [if_pos hle, List.take_left, List.drop_left]

theorem loadStrings_save (l : List Str) (r : List Nat)
    (h : ∀ s ∈ l, s.length < 2 ^ 64) :
    loadStrings l.length ((l.map writeStr).flatten ++ r) = (l, r, true) := by
  induction l generalizing r with
  | nil => simp [loadStrings]
  | cons s ss ih =>
    have hs := h s (List.mem_cons_self s ss)
    show loadStrings (ss.length + 1)
      ((writeStr s :: ss.map writeStr).flatten ++ r) = _
    rw [List.flatten_cons, List.append_assoc]
    unfold loadStrings
    rw [readStr_writeStr hs]
    dsimp only
    rw [ih r (fun t ht => h t (List.mem_cons_of_mem s ht))]

theorem mapping_load_save (st : MappingState)
    (hd : ∀ s ∈ st.docs, s.length < 2 ^ 64)
    (ht : ∀ s ∈ st.tags, s.length < 2 ^ 64)
    (hdl : st.docs.length < 2 ^ 64) (htl : st.tags.length < 2 ^ 64) :
    Mapping.load (Mapping.save st) = (true, st) := by
  have h8 : 8 ≤ (Mapping.save st).length := by
    unfold Mapping.save
    simp [write64, encodeLE_length]
  have hne : Mapping.save st ≠ [] := by
    intro hcontra
    rw [hcontra] at h8
    simp at h8
  unfold Mapping.load
  rw [if_neg hne]
  unfold Mapping.save
  rw [List.append_assoc, List.append_assoc]
  rw [read64_write64 hdl]
  dsimp only
  rw [loadStrings_save st.docs _ hd]
  dsimp only
  rw [if_neg (by decide : ¬(true = false))]
  rw [read64_write64 htl]
  dsimp only
  have hlast := loadStrings_save st.tags [] ht
  rw [List.append_nil] at hlast
  rw [hlast]
  simp

theorem loadTagIds_save (l : List Nat) (r : List Nat)
    (h : ∀ t ∈ l, t < 2 ^ 32) :
    loadTagIds l.length ((l.map write32).flatten ++ r) = (l, r, true) := by
  induction l generalizing r with
  | nil => simp [loadTagIds]
  | cons t ts ih =>
    have htop := h t (List.mem_cons_self t ts)
    show loadTagIds (ts.length + 1)
      ((write32 t :: ts.map write32).flatten ++ r) = _
    rw [List.flatten_cons, List.append_assoc]
    unfold loadTagIds
    rw [read32_write32 htop]
    dsimp only
    rw [ih r (fun t' ht' => h t' (List.mem_cons_of_mem t ht'))]

theorem loadTagLists_save (fw : FwdState) (r : List Nat)
    (h : ∀ d ∈ fw, d.length < 2 ^ 64 ∧ ∀ t ∈ d, t < 2 ^ 32) :
    loadTagLists fw.length ((fw.map writeTagList).flatten ++ r) = (fw, r, true) := by
  induction fw generalizing r with
  | nil => simp [loadTagLists]
  | cons d ds ih =>
    obtain ⟨hdl, hdt⟩ := h d (List.mem_cons_self d ds)
    show loadTagLists (ds.length + 1)
      ((writeTagList d :: ds.map writeTagList).flatten ++ r) = _
    rw [List.flatten_cons, List.append_assoc]
    unfold loadTagLists
    rw [show writeTagList d = write64 d.length ++ (d.map write32).flatten from rfl]
    rw [List.append_assoc, read64_write64 hdl]
    dsimp only
    rw [loadTagIds_save d _ hdt]
    dsimp only
    rw [if_neg (by decide : ¬(true = false))]
    rw [ih r (fun d' hd' => h d' (List.mem_cons_of_mem d hd'))]

theorem forward_load_save (fw : FwdState) (hl : fw.length < 2 ^ 64)
    (h : ∀ d ∈ fw, d.length < 2 ^ 64 ∧ ∀ t ∈ d, t < 2 ^ 32) :
    ForwardIndex.load (ForwardIndex.save fw) = (true, fw) := by
  have h8 : 8 ≤ (ForwardIndex.save fw).length := by
    unfold ForwardIndex.save
    simp [write64, encodeLE_length]
  have hne : ForwardIndex.save fw ≠ [] := by
    intro hcontra
    rw [hcontra] at h8
    simp at h8
  unfold ForwardIndex.load
  rw [if_neg hne]
  unfold ForwardIndex.save
  rw [read64_write64 hl]
  dsimp only
  have hlast := loadTagLists_save fw [] h
  rw [List.append_nil] at hlast
  rw [hlast]

theorem flatten_map_write32_length (l : List Nat) :
    ((l.map write32).flatten).length = 4 * l.length := by
  induction l with
  | nil => rfl
  | cons x xs ih =>
    show ((write32 x :: xs.map write32).flatten).length = _
    rw [List.flatten_cons]
    simp only [List.length_append, ih, write32, encodeLE_length,
      List.length_cons]
    ring

theorem insertAsc_coe (x : Nat) (l : List Nat) :
    ((insertAsc x l : List Nat) : Multiset Nat) = x ::ₘ (l : Multiset Nat) := by
  induction l with
  | nil => rfl
  | cons y ys ih =>
    by_cases hxy : x ≤ y
    · simp [insertAsc, hxy]
    · simp only [insertAsc, if_neg hxy]
      rw [← Multiset.cons_coe, ih, ← Multiset.cons_coe, Multiset.cons_swap]

theorem ascList_coe (b : Bitmap) :
    ((Bitmap.ascList b : List Nat) : Multiset Nat) = b.val := by
  unfold Bitmap.ascList
  refine Multiset.induction_on b.val ?_ ?_
  · rfl
  · intro a s ih
    rw [Multiset.foldr_cons, insertAsc_coe, ih]

theorem ascList_length (b : Bitmap) : (Bitmap.ascList b).length = b.card := by
  have h := congrArg Multiset.card (ascList_coe b)
  simpa using h

theorem mem_ascList (x : Nat) (b : Bitmap) :
    x ∈ Bitmap.ascList b ↔ x ∈ b := by
  rw [← Multiset.mem_coe, ascList_coe]
  exact Finset.mem_val

theorem ascList_toFinset (b : Bitmap) : (Bitmap.ascList b).toFinset = b := by
  have hcoe : (Bitmap.ascList b).toFinset =
      ((Bitmap.ascList b : List Nat) : Multiset Nat).toFinset := rfl
  rw [hcoe, ascList_coe, Finset.val_toFinset]

theorem foldr_insert_toFinset (l : List Nat) :
    l.foldr (fun x acc => insert x acc) ∅ = l.toFinset := by
  induction l with
  | nil => rfl
  | cons x xs ih => simp [ih]

theorem deserBitmap_cons (x : Nat) (hx : x < 2 ^ 32) (rest : List Nat) :
    deserBitmap (write32 x ++ rest) = insert x (deserBitmap rest) := by
  have h4 : write32 x ++ rest =
      (x % 256) :: (x / 256 % 256) :: (x / 256 / 256 % 256) ::
        (x / 256 / 256 / 256 % 256) :: rest := by
    simp [write32, encodeLE]
  rw [h4]
  show insert (decodeLE [x % 256, x / 256 % 256, x / 256 / 256 % 256,
    x / 256 / 256 / 256 % 256]) (deserBitmap rest) = _
  have hdec : decodeLE [x % 256, x / 256 % 256, x / 256 / 256 % 256,
      x / 256 / 256 / 256 % 256] = x := by
    simp only [decodeLE, List.foldr_cons, List.foldr_nil]
    omega
  rw [hdec]

theorem deserBitmap_chunks (l : List Nat) (h : ∀ x ∈ l, x < 2 ^ 32) :
    deserBitmap ((l.map write32).flatten) =
      l.foldr (fun x acc => insert x acc) ∅ := by
  induction l with
  | nil => rfl
  | cons x xs ih =>
    show deserBitmap ((write32 x :: xs.map write32).flatten) = _
    rw [List.flatten_cons, deserBitmap_cons x (h x (List.mem_cons_self x xs))]
    rw [ih (fun y hy => h y (List.mem_cons_of_mem x hy))]
    rfl

theorem deserBitmap_serBitmap (b : Bitmap) (h : ∀ x ∈ b, x < 2 ^ 32) :
    deserBitmap (serBitmap b) = b := by
  unfold serBitmap
  rw [deserBitmap_chunks _ (fun x hx => h x ((mem_ascList x b).mp hx))]
  rw [foldr_insert_toFinset, ascList_toFinset]

theorem serBitmap_length (b : Bitmap) : (serBitmap b).length = 4 * b.card := by
  unfold serBitmap
  rw [flatten_map_write32_length, ascList_length]

theorem loadBitmaps_save (iv : InvState) (r : List Nat)
    (h : ∀ b ∈ iv, (∀ x ∈ b, x < 2 ^ 32) ∧ 4 * b.card < 2 ^ 32) :
    loadBitmaps iv.length
      ((iv.map (fun b => write32 ((serBitmap b).length % 4294967296) ++
        serBitmap b)).flatten ++ r) = (iv, r, true) := by
  induction iv generalizing r with
  | nil => simp [loadBitmaps]
  | cons b bs ih =>
    obtain ⟨hx, hcard⟩ := h b (List.mem_cons_self b bs)
    have hlen : (serBitmap b).length < 2 ^ 32 := by
      rw [serBitmap_length]
      exact hcard
    have hmod : (serBitmap b).length % 4294967296 = (serBitmap b).length :=
      Nat.mod_eq_of_lt (by simpa using hlen)
    show loadBitmaps (bs.length + 1) _ = _
    rw [List.map_cons, List.flatten_cons, List.append_assoc,
      List.append_assoc, hmod]
    unfold loadBitmaps
    rw [read32_write32 hlen]
    dsimp only
    by_cases hz : (serBitmap b).length = 0
    · have hserb : serBitmap b = [] := List.length_eq_zero.mp hz
      have hbb : b = ∅ := by
        have : b.card = 0 := by
          have h4 := serBitmap_length b
          omega
        exact Finset.card_eq_zero.mp this
      rw [if_pos hz, hserb]
      rw [List.nil_append]
      rw [ih r (fun b' hb' => h b' (List.mem_cons_of_mem b hb'))]
      rw [hbb]
    · rw [if_neg hz]
      have hle : (serBitmap b).length ≤
          (serBitmap b ++ ((bs.map (fun b => write32 ((serBitmap b).length % 4294967296) ++
            serBitmap b)).flatten ++ r)).length := by
        simp
      rw [if_pos hle, List.take_left, List.drop_left]
      rw [deserBitmap_serBitmap b hx]
      rw [ih r (fun b' hb' => h b' (List.mem_cons_of_mem b hb'))]

theorem inverted_load_save (iv : InvState) (stale : InvState)
    (hl : iv.length < 2 ^ 64)
    (h : ∀ b ∈ iv, (∀ x ∈ b, x < 2 ^ 32) ∧ 4 * b.card < 2 ^ 32) :
    InvertedIndex.load stale (InvertedIndex.save iv) = (true, iv) := by
  have h8 : 8 ≤ (InvertedIndex.save iv).length := by
    unfold InvertedIndex.save
    simp [write64, encodeLE_length]
  have hne : InvertedIndex.save iv ≠ [] := by
    intro hcontra
    rw [hcontra] at h8
    simp at h8
  unfold InvertedIndex.load
  rw [if_neg hne]
  unfold InvertedIndex.save
  rw [read64_write64 hl]
  dsimp only
  have hlast := loadBitmaps_save iv [] h
  rw [List.append_nil] at hlast
  rw [hlast]

theorem manager_load_save (m m0 : Manager) (h : Manager.WF m) :
    IndexManager.load m0 (IndexManager.save m) = (true, m) := by
  obtain ⟨h1, h2, h3, h4, h5, h6, h7, h8⟩ := h
  unfold IndexManager.load IndexManager.save
  dsimp only
  rw [mapping_load_save m.mapping h1 h2 h3 h4]
  dsimp only
  rw [if_neg (by decide : ¬(true = false))]
  rw [forward_load_save m.fwd h5 h6]
  dsimp only
  rw [if_neg (by decide : ¬(true = false))]
  rw [inverted_load_save m.inv m0.inv h7 h8]

/-- Case analysis of `Mapping::getId`: either the call fails with the
sentinel and leaves the state untouched, or it returns an id below the
new doc-vector length, having either found the string or appended it
(the latter only below the overflow bound); tags are never touched. -/
theorem Mapping.getId_spec (st : MappingState) (s : Str) :
    ((Mapping.getId st s).1 = INVALID_DOC_ID ∧ (Mapping.getId st s).2 = st) ∨
    ((Mapping.getId st s).1 < (Mapping.getId st s).2.docs.length ∧
      ((Mapping.getId st s).2.docs = st.docs ∨
        (s ≠ [] ∧ st.docs.length ≠ INVALID_DOC_ID ∧
          (Mapping.getId st s).2.docs = st.docs ++ [s])) ∧
      (Mapping.getId st s).2.tags = st.tags) := by
  unfold Mapping.getId
  by_cases hs : s = []
  · left
    simp [hs]
  · cases h : lookupStr st.docs s with
    | some i =>
      right
      obtain ⟨h1, _⟩ := lookupStr_some h
      simp [hs, h, h1]
    | none =>
      by_cases hl : st.docs.length = INVALID_DOC_ID
      · left
        simp [hs, h, hl]
      · right
        simp [hs, h, hl]

/-- Case analysis of `Mapping::getTagId`, symmetric to
`Mapping.getId_spec`. -/
theorem Mapping.getTagId_spec (st : MappingState) (s : Str) :
    ((Mapping.getTagId st s).1 = INVALID_TAG_ID ∧ (Mapping.getTagId st s).2 = st) ∨
    ((Mapping.getTagId st s).1 < (Mapping.getTagId st s).2.tags.length ∧
      ((Mapping.getTagId st s).2.tags = st.tags ∨
        (s ≠ [] ∧ st.tags.length ≠ INVALID_TAG_ID ∧
          (Mapping.getTagId st s).2.tags = st.tags ++ [s])) ∧
      (Mapping.getTagId st s).2.docs = st.docs) := by
  unfold Mapping.getTagId
  by_cases hs : s = []
  · left
    simp [hs]
  · cases h : lookupStr st.tags s with
    | some i =>
      right
      obtain ⟨h1, _⟩ := lookupStr_some h
      simp [hs, h, h1]
    | none =>
      by_cases hl : st.tags.length = INVALID_TAG_ID
      · left
        simp [hs, h, hl]
      · right
        simp [hs, h, hl]

/-- Everything the ingestion invariant needs from the tag-interning loop
of `processParsedLine`: the doc vector is untouched, tag strings stay
bounded, the tag count stays below the sentinel and grows monotonically,
and every collected id is a valid index into the final tag vector. -/
theorem IndexManager.internTags_spec (ts : List Str) :
    ∀ mp : MappingState,
      (∀ t ∈ mp.tags, t.length < 2 ^ 64) → (∀ t ∈ ts, t.length < 2 ^ 64) →
      mp.tags.length ≤ INVALID_TAG_ID →
      (IndexManager.internTags mp ts).2.docs = mp.docs ∧
      (∀ t ∈ (IndexManager.internTags mp ts).2.tags, t.length < 2 ^ 64) ∧
      (IndexManager.internTags mp ts).2.tags.length ≤ INVALID_TAG_ID ∧
      mp.tags.length ≤ (IndexManager.internTags mp ts).2.tags.length ∧
      (∀ id ∈ (IndexManager.internTags mp ts).1,
        id < (IndexManager.internTags mp ts).2.tags.length) := by
  induction ts with
  | nil =>
    intro mp h1 _ h3
    exact ⟨rfl, h1, h3, Nat.le_refl _, by simp [IndexManager.internTags]⟩
  | cons s ss ih =>
    intro mp h1 h2 h3
    have hs : s.length < 2 ^ 64 := h2 s (List.mem_cons_self s ss)
    have hmid : (∀ t ∈ (Mapping.getTagId mp s).2.tags, t.length < 2 ^ 64) ∧
        (Mapping.getTagId mp s).2.tags.length ≤ INVALID_TAG_ID ∧
        mp.tags.length ≤ (Mapping.getTagId mp s).2.tags.length ∧
        (Mapping.getTagId mp s).2.docs = mp.docs := by
      rcases Mapping.getTagId_spec mp s with ⟨_, hst⟩ | ⟨_, hcase, hdocs⟩
      · rw [hst]
        exact ⟨h1, h3, Nat.le_refl _, rfl⟩
      · refine ⟨?_, ?_, ?_, hdocs⟩
        · intro t ht
          rcases hcase with heq | ⟨_, _, heq⟩
          · exact h1 t (heq ▸ ht)
          · rw [heq] at ht
            rcases List.mem_append.mp ht with hmem | hmem
            · exact h1 t hmem
            · rw [List.mem_singleton.mp hmem]
              exact hs
        · rcases hcase with heq | ⟨_, hne, heq⟩
          · rw [heq]
            exact h3
          · rw [heq]
            simp only [List.length_append, List.length_singleton]
            omega
        · rcases hcase with heq | ⟨_, _, heq⟩
          · rw [heq]
          · rw [heq]
            simp
    obtain ⟨hm1, hm2, hm3, hm4⟩ := hmid
    have hrec := ih (Mapping.getTagId mp s).2 hm1
      (fun t ht => h2 t (List.mem_cons_of_mem s ht)) hm2
    obtain ⟨hr0, hr1, hr2, hr3, hr4⟩ := hrec
    unfold IndexManager.internTags
    by_cases hid : (Mapping.getTagId mp s).1 = INVALID_TAG_ID
    · simp only [hid, if_pos rfl]
      exact ⟨hm4 ▸ hr0, hr1, hr2, Nat.le_trans hm3 hr3, hr4⟩
    · simp only [hid, if_neg hid]
      refine ⟨hm4 ▸ hr0, hr1, hr2, Nat.le_trans hm3 hr3, ?_⟩
      intro id hidmem
      rcases List.mem_cons.mp hidmem with rfl | hmem
      · rcases Mapping.getTagId_spec mp s with ⟨habs, _⟩ | ⟨hlt, _, _⟩
        · exact absurd habs hid
        · exact Nat.lt_of_lt_of_le hlt hr3
      · exact hr4 id hmem

theorem sortedDedup_mem (l : List Nat) :
    ∀ x ∈ sortedDedup l, x ∈ l := by
  intro x hx
  unfold sortedDedup at hx
  rw [mem_ascList] at hx
  exact List.mem_toFinset.mp hx

theorem sortedDedup_length_le (l : List Nat) (T : Nat)
    (h : ∀ x ∈ l, x < T) : (sortedDedup l).length ≤ T := by
  unfold sortedDedup
  rw [ascList_length]
  have hsub : l.toFinset ⊆ Finset.range T := by
    intro x hx
    rw [Finset.mem_range]
    exact h x (List.mem_toFinset.mp hx)
  calc l.toFinset.card ≤ (Finset.range T).card := Finset.card_le_card hsub
    _ = T := Finset.card_range T

theorem ForwardIndex.addTags_length (fw : FwdState) (d : Nat)
    (tags : List Nat) :
    (ForwardIndex.addTags fw d tags).length ≤ max fw.length (d + 1) := by
  unfold ForwardIndex.addTags
  by_cases hd : d = INVALID_DOC_ID
  · simp [hd]
  · rw [if_neg hd]
    by_cases hlen : fw.length ≤ d
    · simp [hlen]
      omega
    · simp [hlen]

theorem ForwardIndex.addTags_mem (fw : FwdState) (d : Nat) (tags : List Nat) :
    ∀ l ∈ ForwardIndex.addTags fw d tags, l ∈ fw ∨ l = [] ∨ l = tags := by
  intro l hl
  unfold ForwardIndex.addTags at hl
  by_cases hd : d = INVALID_DOC_ID
  · rw [if_pos hd] at hl
    exact Or.inl hl
  · rw [if_neg hd] at hl
    rcases List.mem_or_eq_of_mem_set hl with hmem | rfl
    · by_cases hlen : fw.length ≤ d
      · rw [if_pos hlen] at hmem
        rcases List.mem_append.mp hmem with h1 | h1
        · exact Or.inl h1
        · exact Or.inr (Or.inl (List.eq_of_mem_replicate h1))
      · rw [if_neg hlen] at hmem
        exact Or.inl hmem
    · exact Or.inr (Or.inr rfl)

theorem InvertedIndex.add_length (iv : InvState) (d t : Nat) :
    (InvertedIndex.add iv d t).length ≤ max iv.length (t + 1) := by
  unfold InvertedIndex.add
  by_cases hd : d = INVALID_DOC_ID
  · simp [hd]
  · rw [if_neg hd]
    by_cases ht : t = INVALID_TAG_ID
    · simp [ht]
    · rw [if_neg ht]
      by_cases hlen : iv.length ≤ t
      · simp [hlen]
        omega
      · simp [hlen]

theorem InvertedIndex.add_elem_bound (iv : InvState) (d t D : Nat)
    (hiv : ∀ b ∈ iv, ∀ x ∈ b, x < D) (hd : d < D) :
    ∀ b ∈ InvertedIndex.add iv d t, ∀ x ∈ b, x < D := by
  intro b hb
  unfold InvertedIndex.add at hb
  by_cases hdv : d = INVALID_DOC_ID
  · rw [if_pos hdv] at hb
    exact hiv b hb
  · rw [if_neg hdv] at hb
    by_cases htv : t = INVALID_TAG_ID
    · rw [if_pos htv] at hb
      exact hiv b hb
    · rw [if_neg htv] at hb
      have hpad : ∀ b' ∈ (if iv.length ≤ t then
          iv ++ List.replicate (t + 1 - iv.length) ∅ else iv), ∀ x ∈ b', x < D := by
        intro b' hb' x hx
        by_cases hlen : iv.length ≤ t
        · rw [if_pos hlen] at hb'
          rcases List.mem_append.mp hb' with h1 | h1
          · exact hiv b' h1 x hx
          · rw [List.eq_of_mem_replicate h1] at hx
            exact absurd hx (Finset.not_mem_empty x)
        · rw [if_neg hlen] at hb'
          exact hiv b' hb' x hx
      rcases List.mem_or_eq_of_mem_set hb with hmem | rfl
      · exact hpad b hmem
      · intro x hx
        rcases Finset.mem_insert.mp hx with rfl | hx2
        · exact hd
        · set iv2 := if iv.length ≤ t then
            iv ++ List.replicate (t + 1 - iv.length) ∅ else iv with hiv2
          by_cases hlt : t < iv2.length
          · have hmem2 : iv2.getD t ∅ ∈ iv2 := by
              rw [List.getD_eq_getElem?_getD, List.getElem?_eq_getElem hlt]
              exact List.getElem_mem hlt
            exact hpad _ hmem2 x hx2
          · rw [List.getD_eq_getElem?_getD, List.getElem?_eq_none
              (Nat.le_of_not_lt hlt)] at hx2
            exact absurd hx2 (Finset.not_mem_empty x)

theorem InvertedIndex.foldl_add_elem_bound (l : List Nat) (d D : Nat) :
    ∀ iv : InvState, (∀ b ∈ iv, ∀ x ∈ b, x < D) → d < D →
      ∀ b ∈ l.foldl (fun iv t => InvertedIndex.add iv d t) iv, ∀ x ∈ b, x < D := by
  induction l with
  | nil => intro iv hiv _; exact hiv
  | cons t ts ih =>
    intro iv hiv hd
    rw [List.foldl_cons]
    exact ih _ (InvertedIndex.add_elem_bound iv d t D hiv hd) hd

theorem InvertedIndex.foldl_add_length (l : List Nat) (d T : Nat) :
    ∀ iv : InvState, (∀ t ∈ l, t < T) → iv.length ≤ T →
      (l.foldl (fun iv t => InvertedIndex.add iv d t) iv).length ≤ T := by
  induction l with
  | nil => intro iv _ h; exact h
  | cons t ts ih =>
    intro iv hl hle
    rw [List.foldl_cons]
    refine ih _ (fun t' ht' => hl t' (List.mem_cons_of_mem t ht')) ?_
    have := InvertedIndex.add_length iv d t
    have ht := hl t (List.mem_cons_self t ts)
    omega

theorem IndexManager.processParsedLine_inv (m : Manager) (id_str : Str)
    (tags_str : List Str) (h : ManagerInv m) (hs : id_str.length < 2 ^ 64)
    (hts : ∀ t ∈ tags_str, t.length < 2 ^ 64) :
    ManagerInv (IndexManager.processParsedLine m id_str tags_str) ∧
    (IndexManager.processParsedLine m id_str tags_str).mapping.docs.length ≤
      m.mapping.docs.length + 1 := by
  unfold IndexManager.processParsedLine
  by_cases hinv : (Mapping.getId m.mapping id_str).1 = INVALID_DOC_ID
  · rcases Mapping.getId_spec m.mapping id_str with ⟨_, hst⟩ | ⟨hlt, hcase, _⟩
    · rw [if_pos hinv, hst]
      exact ⟨h, Nat.le_succ _⟩
    · exfalso
      rw [hinv] at hlt
      have hdl := h.docs_le
      rcases hcase with heq | ⟨_, hne, heq⟩
      · rw [heq] at hlt
        omega
      · rw [heq] at hlt
        simp only [List.length_append, List.length_singleton] at hlt
        omega
  · rw [if_neg hinv]
    rcases Mapping.getId_spec m.mapping id_str with ⟨habs, _⟩ | ⟨hlt, hcase, htags⟩
    · exact absurd habs hinv
    · -- facts about the doc side after getId
      have hdocs_ge : m.mapping.docs.length ≤
          (Mapping.getId m.mapping id_str).2.docs.length := by
        rcases hcase with heq | ⟨_, _, heq⟩
        · rw [heq]
        · rw [heq]
          simp
      have hdocs_le1 : (Mapping.getId m.mapping id_str).2.docs.length ≤
          m.mapping.docs.length + 1 := by
        rcases hcase with heq | ⟨_, _, heq⟩
        · rw [heq]
          omega
        · rw [heq]
          simp
      have hdocs_inv : (Mapping.getId m.mapping id_str).2.docs.length ≤
          INVALID_DOC_ID := by
        rcases hcase with heq | ⟨_, hne, heq⟩
        · rw [heq]
          exact h.docs_le
        · rw [heq]
          simp only [List.length_append, List.length_singleton]
          have := h.docs_le
          omega
      have hdocs_str : ∀ s ∈ (Mapping.getId m.mapping id_str).2.docs,
          s.length < 2 ^ 64 := by
        rcases hcase with heq | ⟨_, _, heq⟩
        · rw [heq]
          exact h.docs_str
        · rw [heq]
          intro s hmem
          rcases List.mem_append.mp hmem with h1 | h1
          · exact h.docs_str s h1
          · rw [List.mem_singleton.mp h1]
            exact hs
      -- facts about the tag side after internTags
      have hti := IndexManager.internTags_spec tags_str
        (Mapping.getId m.mapping id_str).2
        (htags ▸ h.tags_str) hts (htags ▸ h.tags_le)
      obtain ⟨ht0, ht1, ht2, ht3, ht4⟩ := hti
      have htags_ge : m.mapping.tags.length ≤
          (IndexManager.internTags (Mapping.getId m.mapping id_str).2
            tags_str).2.tags.length := by
        rw [htags] at ht3
        exact ht3
      have hdocs_final : (IndexManager.internTags
          (Mapping.getId m.mapping id_str).2 tags_str).2.docs =
          (Mapping.getId m.mapping id_str).2.docs := ht0
      constructor
      · constructor
        · rw [hdocs_final]
          exact hdocs_inv
        · exact ht2
        · rw [hdocs_final]
          exact hdocs_str
        · exact ht1
        · -- forward index length
          refine le_trans (ForwardIndex.addTags_length m.fwd _ _) ?_
          rw [hdocs_final]
          have h1 : m.fwd.length ≤
              (Mapping.getId m.mapping id_str).2.docs.length :=
            le_trans h.fwd_le hdocs_ge
          have h2 : (Mapping.getId m.mapping id_str).1 + 1 ≤
              (Mapping.getId m.mapping id_str).2.docs.length := hlt
          omega
        · -- forward slots
          intro dslot hdslot
          rcases ForwardIndex.addTags_mem m.fwd _ _ dslot hdslot with
            hmem | hnil | hnew
          · obtain ⟨hl1, hl2⟩ := h.fwd_slots dslot hmem
            exact ⟨le_trans hl1 htags_ge,
              fun t ht => Nat.lt_of_lt_of_le (hl2 t ht) htags_ge⟩
          · rw [hnil]
            simp
          · rw [hnew]
            refine ⟨sortedDedup_length_le _ _ ht4, ?_⟩
            intro t ht
            exact ht4 t (sortedDedup_mem _ t ht)
        · -- inverted index length
          refine InvertedIndex.foldl_add_length _ _ _ m.inv ht4 ?_
          exact le_trans h.inv_le htags_ge
        · -- inverted index elements
          refine InvertedIndex.foldl_add_elem_bound _ _ _ m.inv ?_ ?_
          · intro b hb x hx
            refine Nat.lt_of_lt_of_le (h.inv_elems b hb x hx) ?_
            rw [hdocs_final]
            exact hdocs_ge
          · rw [hdocs_final]
            exact hlt
      · rw [hdocs_final]
        exact hdocs_le1

theorem IndexManager.ingestAll_inv (rs : List (Str × List Str)) :
    ∀ m : Manager, ManagerInv m →
      (∀ r ∈ rs, r.1.length < 2 ^ 64 ∧ ∀ t ∈ r.2, t.length < 2 ^ 64) →
      ManagerInv (IndexManager.ingestAll m rs) ∧
      (IndexManager.ingestAll m rs).mapping.docs.length ≤
        m.mapping.docs.length + rs.length := by
  induction rs with
  | nil =>
    intro m h _
    exact ⟨h, by simp [IndexManager.ingestAll]⟩
  | cons r rest ih =>
    intro m h hb
    obtain ⟨hr1, hr2⟩ := hb r (List.mem_cons_self r rest)
    have hstep := IndexManager.processParsedLine_inv m r.1 r.2 h hr1 hr2
    have hrec := ih (IndexManager.processParsedLine m r.1 r.2) hstep.1
      (fun r' hmem => hb r' (List.mem_cons_of_mem r hmem))
    constructor
    · show ManagerInv (IndexManager.ingestAll _ rest)
      exact hrec.1
    · show (IndexManager.ingestAll _ rest).mapping.docs.length ≤ _
      have h1 := hrec.2
      have h2 := hstep.2
      simp only [List.length_cons]
      omega

theorem Manager.empty_inv : ManagerInv Manager.empty := by
  constructor <;> simp [Manager.empty, MappingState.empty]

theorem Manager.wf_of_inv (m : Manager) (h : ManagerInv m)
    (hsmall : m.mapping.docs.length < 2 ^ 30) : Manager.WF m := by
  have hdocs := h.docs_le
  have htags := h.tags_le
  unfold INVALID_DOC_ID at hdocs
  unfold INVALID_TAG_ID at htags
  refine ⟨h.docs_str, h.tags_str, by omega, by omega, ?_, ?_, ?_, ?_⟩
  · have := h.fwd_le
    omega
  · intro d hd
    obtain ⟨h1, h2⟩ := h.fwd_slots d hd
    exact ⟨by omega, fun t ht => by have := h2 t ht; omega⟩
  · have := h.inv_le
    omega
  · intro b hb
    constructor
    · intro x hx
      have := h.inv_elems b hb x hx
      omega
    · have hsub : b ⊆ Finset.range m.mapping.docs.length := by
        intro x hx
        rw [Finset.mem_range]
        exact h.inv_elems b hb x hx
      have hcard : b.card ≤ m.mapping.docs.length := by
        calc b.card ≤ (Finset.range m.mapping.docs.length).card :=
              Finset.card_le_card hsub
          _ = m.mapping.docs.length := Finset.card_range _
      omega

/-- C6.  Persistence round-trips: after ingesting any sequence of
records (of physically representable sizes: fewer than `2^30` records,
strings shorter than `2^64` bytes), saving the three components and
loading the files into a fresh manager succeeds and reproduces the
exact manager state, so every query — `queryTags`,
`getTagsForDocument`, and the doc/tag counts — is answered identically
by the restored manager. -/
theorem c6_persistence_roundtrip (rs : List (Str × List Str))
    (hlen : rs.length < 2 ^ 30)
    (hb : ∀ r ∈ rs, r.1.length < 2 ^ 64 ∧ ∀ t ∈ r.2, t.length < 2 ^ 64) :
    IndexManager.load Manager.empty
        (IndexManager.save (IndexManager.ingestAll Manager.empty rs)) =
      (true, IndexManager.ingestAll Manager.empty rs) ∧
    (∀ (tags : List Str) (op : BitmapOperation),
      IndexManager.queryTags
        (IndexManager.load Manager.empty
          (IndexManager.save (IndexManager.ingestAll Manager.empty rs))).2
        tags op =
      IndexManager.queryTags (IndexManager.ingestAll Manager.empty rs) tags op) ∧
    (∀ d : Str,
      IndexManager.getTagsForDocument
        (IndexManager.load Manager.empty
          (IndexManager.save (IndexManager.ingestAll Manager.empty rs))).2 d =
      IndexManager.getTagsForDocument (IndexManager.ingestAll Manager.empty rs) d) ∧
    IndexManager.getDocumentCount
        (IndexManager.load Manager.empty
          (IndexManager.save (IndexManager.ingestAll Manager.empty rs))).2 =
      IndexManager.getDocumentCount (IndexManager.ingestAll Manager.empty rs) ∧
    IndexManager.getTagCount
        (IndexManager.load Manager.empty
          (IndexManager.save (IndexManager.ingestAll Manager.empty rs))).2 =
      IndexManager.getTagCount (IndexManager.ingestAll Manager.empty rs) := by
  have hinv := IndexManager.ingestAll_inv rs Manager.empty Manager.empty_inv hb
  have hsmall : (IndexManager.ingestAll Manager.empty rs).mapping.docs.length <
      2 ^ 30 := by
    have h2 := hinv.2
    have h0 : Manager.empty.mapping.docs.length = 0 := rfl
    rw [h0] at h2
    omega
  have hwf := Manager.wf_of_inv _ hinv.1 hsmall
  have hload := manager_load_save _ Manager.empty hwf
  refine ⟨hload, ?_, ?_, ?_, ?_⟩
  · intro tags op
    rw [hload]
  · intro d
    rw [hload]
  · rw [hload]
  · rw [hload]

/-- Closed instance of `c6_persistence_roundtrip`: one record
`"d" | "a"`, checked on the state equation and on an `OR` query. -/
theorem c6_witness :
    IndexManager.load Manager.empty
        (IndexManager.save
          (IndexManager.ingestAll Manager.empty [([100], [[97]])])) =
      (true, IndexManager.ingestAll Manager.empty [([100], [[97]])]) ∧
    IndexManager.queryTags
        (IndexManager.load Manager.empty
          (IndexManager.save
            (IndexManager.ingestAll Manager.empty [([100], [[97]])]))).2
        [[97]] BitmapOperation.OR =
      IndexManager.queryTags
        (IndexManager.ingestAll Manager.empty [([100], [[97]])])
        [[97]] BitmapOperation.OR :=
  ⟨(c6_persistence_roundtrip [([100], [[97]])] (by decide) (by decide)).1,
    (c6_persistence_roundtrip [([100], [[97]])] (by decide) (by decide)).2.1
      [[97]] BitmapOperation.OR⟩

end BitmapIndex
